import Mathlib
set_option maxHeartbeats 1000000

/-!
Shallow embedding of the CUDA GPU hash table (gpu_hashtable.hpp / gpu_hashtable.cu).

The table is a contiguous array of `TableEntry` slots (key/value, 32-bit),
with the all-bits-one sentinel `KEY_INVALID` marking an empty slot.  The three
device kernels (`kernelInsert`, `kernelReshape`, `kernelGet`) launch one worker
per item; each worker linearly probes from `hashFunc key % capacity`.  We embed
the kernels by running the workers sequentially in thread-index order — each
worker's atomic compare-and-swap loop runs to completion before the next worker
starts, which is one admissible schedule of the device execution, and the one
against which the specification's functional claims are stated (the caller is
required to serialize top-level operations).

Machine integers are modelled as `Nat` with explicit `% 2^32` where the C code
wraps.  The insert/reshape probe loops abandon after the probe index wraps back
to the home bucket, i.e. after exactly `capacity` probes, so they are embedded
with fuel `capacity`, which is exact.  The lookup loop in `kernelGet` has no
bound at all; it is embedded with explicit fuel, `none` meaning "has not
terminated within `fuel` probes", and divergence is `∀ fuel, none`.  The
single-precision float expressions are modelled exactly: `(float)x` of an
unsigned integer is `rnd24 x` (round-to-nearest-even to a 24-bit significand),
the comparison `loadFactor(used + n, capacity) > MAX_LOAD_FACTOR` (0.8f) is
`loadFactorGtMax`, an exact integer inequality derived from the binary32
representation of `0.8f` and the monotonicity of rounding, and the new
capacity `(int)((used + n) / MIN_LOAD_FACTOR)` (0.5f) is the exact even
integer `2 * rnd24 (used + n)`.
-/
/-- The reserved sentinel key: all-bits-one 32-bit value (`0xFFFFFFFF`),
the pattern produced by `cudaMemset(table, KEY_INVALID, ...)`. -/
def KEY_INVALID : Nat := 4294967295

/-- One slot of the table: `struct TableEntry { uint32 key; uint32 value; }`. -/
structure TableEntry where
  key : Nat
  value : Nat
deriving Repr, DecidableEq

/-- Out-of-range reads return the memset pattern; all in-range accesses in the
development are guarded by bounds anyway. -/
instance : Inhabited TableEntry := ⟨⟨KEY_INVALID, KEY_INVALID⟩⟩

/-- The hash-table object: `struct TableEntry *table` plus `used_buckets`.
The `capacity` field of the C++ class always equals the length of the
allocated array, so it is embedded as the derived function `capacity`. -/
structure GpuHashTable where
  table : List TableEntry
  used_buckets : Nat
deriving Repr, DecidableEq

/-- `this->capacity`: always the length of the allocated slot array. -/
def capacity (t : GpuHashTable) : Nat := t.table.length

/-- `hashFunc`: the Jenkins 32-bit mix used by all kernels.
`~hash` on a value `h < 2^32` is `2^32 - 1 - h`; left shifts followed by
additions wrap modulo `2^32`; right shifts are division. -/
def hashFunc (key : Nat) : Nat :=
  let M : Nat := 4294967296
  let h0 := key % M
  let h1 := ((M - 1 - h0) + h0 * 32768) % M
  let h2 := Nat.xor h1 (h1 / 4096)
  let h3 := (h2 + h2 * 4) % M
  let h4 := Nat.xor h3 (h3 / 16)
  let h5 := ((h4 + h4 * 8) + h4 * 2048) % M
  Nat.xor h5 (h5 / 65536)

/-- Round-to-nearest-even of `x` to a multiple of `2 ^ e` (ties to the even
quotient): the binade-local rounding step of binary32. -/
def rnd24Aux (x e : Nat) : Nat :=
  if x % 2 ^ e < 2 ^ (e - 1) then x / 2 ^ e * 2 ^ e
  else if 2 ^ (e - 1) < x % 2 ^ e then (x / 2 ^ e + 1) * 2 ^ e
  else if x / 2 ^ e % 2 = 0 then x / 2 ^ e * 2 ^ e
  else (x / 2 ^ e + 1) * 2 ^ e

/-- `(float)x` for a natural `x`: IEEE-754 binary32 rounding (round to
nearest, ties to even) of `x` to a 24-bit significand.  Below `2 ^ 24` the
conversion is exact; above, `x` sits in the binade `[2 ^ (l), 2 ^ (l + 1))`
with `l = Nat.log2 x`, where representable floats are the multiples of
`2 ^ (l - 23)`.  No overflow is reachable from the `uint32` range. -/
def rnd24 (x : Nat) : Nat :=
  if x < 16777216 then x else rnd24Aux x (Nat.log2 x - 23)

/-- The binary32 comparison
`loadFactor(projected, capacity) > MAX_LOAD_FACTOR`, i.e.
`(float)projected / (float)capacity > 0.8f` evaluated in single precision.
`0.8f` is the float `13421773 / 2 ^ 24` (odd significand), so the smallest
real quotient whose rounding exceeds it is the midpoint `26843547 / 2 ^ 25`
(a tie, rounded up to the even significand `13421774`); by monotonicity of
rounding, the float comparison holds exactly when the real quotient of the
two rounded operands reaches that midpoint.  A zero capacity makes the
division yield `+inf > 0.8f` (the numerator is positive at every use site). -/
def loadFactorGtMax (projected cap : Nat) : Prop :=
  cap = 0 ∨ 26843547 * rnd24 cap ≤ 2 ^ 25 * rnd24 projected

instance (projected cap : Nat) : Decidable (loadFactorGtMax projected cap) := by
  unfold loadFactorGtMax
  infer_instance

/-- Slot read `table[i]` (in-range in all uses; out-of-range gives the memset
default). -/
def entryAt (tbl : List TableEntry) (i : Nat) : TableEntry :=
  tbl.getD i ⟨KEY_INVALID, KEY_INVALID⟩

/-- The key stored at slot `i`. -/
def keyAt (tbl : List TableEntry) (i : Nat) : Nat := (entryAt tbl i).key

/-- The probe-loop body of `kernelInsert` for one worker: starting at `idx`,
repeatedly `atomicCAS(&table[idx].key, KEY_INVALID, k)`; on winning an empty
slot or finding the key already present, write the value and stop (the second
component reports whether this was an update in place, i.e. `old_key == k`);
otherwise advance to `(idx + 1) % cap`.  The C loop abandons when the index
wraps back to the home bucket, i.e. after `cap` probes, which is the fuel. -/
def insertLoop (tbl : List TableEntry) (cap k v : Nat) :
    Nat → Nat → List TableEntry × Bool
  | 0, _ => (tbl, false)
  | fuel + 1, idx =>
    let old_key := keyAt tbl idx
    if old_key == KEY_INVALID || old_key == k then
      (tbl.set idx { key := k, value := v }, old_key == k)
    else
      insertLoop tbl cap k v fuel ((idx + 1) % cap)

/-- `kernelInsert`: one worker per batch element, run in thread-index order.
Returns the final table and the value of the shared `count_updated_keys`
counter. -/
def kernelInsert (cap : Nat) :
    List TableEntry → List Nat → List Nat → List TableEntry × Nat
  | tbl, [], _ => (tbl, 0)
  | tbl, _, [] => (tbl, 0)
  | tbl, k :: ks, v :: vs =>
    let r := insertLoop tbl cap k v cap (hashFunc k % cap)
    let rest := kernelInsert cap r.1 ks vs
    (rest.1, (if r.2 then 1 else 0) + rest.2)

/-- The probe-loop body of `kernelReshape` for one live old slot: identical
probing, but the CAS claims only an empty slot (a matching key never stops the
scan here).  Fuel `newCap` is again exact for the wrap-around abandon check. -/
def reshapeLoop (tbl : List TableEntry) (cap k v : Nat) :
    Nat → Nat → List TableEntry
  | 0, _ => tbl
  | fuel + 1, idx =>
    if keyAt tbl idx == KEY_INVALID then
      tbl.set idx { key := k, value := v }
    else
      reshapeLoop tbl cap k v fuel ((idx + 1) % cap)

/-- `kernelReshape`: one worker per old slot, in index order; workers whose old
slot is empty do nothing, the others re-insert their entry into the new
table. -/
def kernelReshape (newCap : Nat) (old_table new_table : List TableEntry) :
    List TableEntry :=
  old_table.foldl
    (fun acc e =>
      if e.key == KEY_INVALID then acc
      else reshapeLoop acc newCap e.key e.value newCap (hashFunc e.key % newCap))
    new_table

/-- `GpuHashTable::reshape(numBucketsReshape)`: allocate a sentinel-initialized
array of the new size, rehash every live old entry into it, install it;
`used_buckets` is not touched. -/
def reshape (t : GpuHashTable) (numBucketsReshape : Nat) : GpuHashTable :=
  { table :=
      kernelReshape numBucketsReshape t.table
        (List.replicate numBucketsReshape ⟨KEY_INVALID, KEY_INVALID⟩),
    used_buckets := t.used_buckets }

/-- `GpuHashTable::insertBatch(keys, values, numKeys)`: `numKeys == 0` returns
`false`; otherwise resize when the projected single-precision load factor
`loadFactor(used + n, capacity)` exceeds `0.8f` (the exact model
`loadFactorGtMax`) to `(int)((float)(used + n) / 0.5f)`: dividing a binary32
float by `0.5f` doubles it exactly and the result is an even integer, so the
truncating conversion gives `2 * rnd24 (used + n)`.  Then run `kernelInsert`
and account `used_buckets += n - count_updated_keys`. -/
def insertBatch (t : GpuHashTable) (keys values : List Nat) :
    GpuHashTable × Bool :=
  if keys.length = 0 then (t, false)
  else
    let projected := t.used_buckets + keys.length
    let t1 := if loadFactorGtMax projected (capacity t)
      then reshape t (2 * rnd24 projected) else t
    let r := kernelInsert (capacity t1) t1.table keys values
    ({ table := r.1, used_buckets := t1.used_buckets + keys.length - r.2 }, true)

/-- The probe loop of `kernelGet` for one worker: scan from the home bucket,
stopping only when the probed slot's key equals the target; copy that slot's
value on a match.  The C loop is unbounded (`while (1)` with no wrap check);
`fuel` counts probes performed so far, and `none` means the loop has not
terminated within `fuel` probes — divergence is `none` for every fuel. -/
def getLoop (tbl : List TableEntry) (cap k : Nat) : Nat → Nat → Option Nat
  | 0, _ => none
  | fuel + 1, idx =>
    if k == keyAt tbl idx then some (entryAt tbl idx).value
    else getLoop tbl cap k fuel ((idx + 1) % cap)

/-- One `kernelGet` worker, allowed `fuel` probes. -/
def kernelGetThread (tbl : List TableEntry) (cap k fuel : Nat) : Option Nat :=
  getLoop tbl cap k fuel (hashFunc k % cap)

/-- `GpuHashTable::getBatch(keys, numKeys)`: `numKeys == 0` returns `NULL`
(outer `none`); otherwise one lookup worker per key.  Each worker gets fuel
`capacity`: a scan that matches ever matches within `capacity` probes (the
probe index cycles), so `some` per-key results are exactly the terminating
lookups and an inner `none` marks a diverging one. -/
def getBatch (t : GpuHashTable) (keys : List Nat) : Option (List (Option Nat)) :=
  if keys.length = 0 then none
  else some (keys.map (fun k => kernelGetThread t.table (capacity t) k (capacity t)))

/-- `GpuHashTable(int size)`: a fresh table, `cudaMemset` to the sentinel
pattern, `used_buckets = 0`. -/
def GpuHashTable.init (size : Nat) : GpuHashTable :=
  { table := List.replicate size ⟨KEY_INVALID, KEY_INVALID⟩, used_buckets := 0 }

/-! ### Probe-sequence machinery

All three kernels traverse the same cyclic probe sequence
`home, (home+1) % cap, (home+2) % cap, ...`; they differ only in the condition
that stops the scan.  `probeFind p cap fuel idx` returns the first index along
that sequence satisfying `p`, looking at most `fuel` slots. -/
/-- The stop condition of the insert probe loop: empty slot or matching key. -/
def stopIns (tbl : List TableEntry) (k i : Nat) : Bool :=
  keyAt tbl i == KEY_INVALID || keyAt tbl i == k

/-- The stop condition of the reshape probe loop: empty slot only. -/
def stopEmpty (tbl : List TableEntry) (i : Nat) : Bool :=
  keyAt tbl i == KEY_INVALID

/-- The stop condition of the lookup probe loop: matching key only. -/
def stopGet (tbl : List TableEntry) (k i : Nat) : Bool :=
  k == keyAt tbl i

/-- First index along the cyclic probe sequence satisfying `p`, within `fuel`
probes. -/
def probeFind (p : Nat → Bool) (cap : Nat) : Nat → Nat → Option Nat
  | 0, _ => none
  | fuel + 1, idx => if p idx then some idx else probeFind p cap fuel ((idx + 1) % cap)

/-! ### The association-list model (specification side)

`lookupA`/`updA` are the abstract functional model of the table: `updA`
overwrites the value of an existing key and appends a genuinely new key.
A batch of inserts denotes the left fold of `updA` over the key/value pairs,
so `lookupA` of the final model is exactly "the last-written value". -/
def lookupA : List (Nat × Nat) → Nat → Option Nat
  | [], _ => none
  | p :: rest, k => if p.1 = k then some p.2 else lookupA rest k

def updA : List (Nat × Nat) → Nat → Nat → List (Nat × Nat)
  | [], k, v => [(k, v)]
  | p :: rest, k, v => if p.1 = k then (k, v) :: rest else p :: updA rest k v

def batchUpd (m : List (Nat × Nat)) (keys values : List Nat) : List (Nat × Nat) :=
  (keys.zip values).foldl (fun acc p => updA acc p.1 p.2) m

/-! ### Live entries, live count, and the table invariant -/
/-- The key/value pairs stored in live (non-sentinel) slots, in slot order. -/
def entries : List TableEntry → List (Nat × Nat)
  | [] => []
  | e :: rest =>
    if e.key = KEY_INVALID then entries rest else (e.key, e.value) :: entries rest

/-- The number of live (non-sentinel) slots. -/
def countLive : List TableEntry → Nat
  | [] => 0
  | e :: rest => (if e.key = KEY_INVALID then 0 else 1) + countLive rest

/-- Slot `i`'s key is found back at `i`: the first empty-or-matching slot along
its key's probe sequence (the scan `kernelInsert` performs for that key) is `i`
itself.  This is the linear-probing well-formedness every reachable table
enjoys, and what makes every stored key retrievable. -/
def findable (tbl : List TableEntry) (i : Nat) : Prop :=
  probeFind (stopIns tbl (keyAt tbl i)) tbl.length tbl.length
    (hashFunc (keyAt tbl i) % tbl.length) = some i

instance (tbl : List TableEntry) (i : Nat) : Decidable (findable tbl i) := by
  unfold findable; infer_instance

/-- Every live slot is findable. -/
def WF (tbl : List TableEntry) : Prop :=
  ∀ i, i < tbl.length → keyAt tbl i ≠ KEY_INVALID → findable tbl i

instance (tbl : List TableEntry) : Decidable (WF tbl) := by
  unfold WF; infer_instance

/-- The table stores exactly the association list `m`: mutual membership
between `m` and the live entries, `m` has pairwise-distinct keys, and no
sentinel key.  All components are decidable so concrete witnesses can be
checked by evaluation. -/
def Represents (tbl : List TableEntry) (m : List (Nat × Nat)) : Prop :=
  (m.map Prod.fst).Nodup ∧ (∀ p ∈ m, p.1 ≠ KEY_INVALID) ∧
    (∀ p ∈ entries tbl, p ∈ m) ∧ (∀ p ∈ m, p ∈ entries tbl)

instance (tbl : List TableEntry) (m : List (Nat × Nat)) :
    Decidable (Represents tbl m) := by
  unfold Represents; infer_instance

/-- The full state invariant tying a `GpuHashTable` to its abstract model:
well-formed slots, exact representation, and `used_buckets` equal to the
number of live keys. -/
def TableInv (t : GpuHashTable) (m : List (Nat × Nat)) : Prop :=
  WF t.table ∧ Represents t.table m ∧ countLive t.table = m.length ∧
    t.used_buckets = m.length

instance (t : GpuHashTable) (m : List (Nat × Nat)) : Decidable (TableInv t m) := by
  unfold TableInv; infer_instance

/-! ### Operation sequences -/
/-- One public operation issued by the (serializing) caller. -/
inductive Op where
  | insert (keys values : List Nat)
  | reshapeTo (c : Nat)
  | get (keys : List Nat)

/-- State after one operation: `getBatch` only reads the table (its kernel
writes the output buffer alone), so it leaves the state unchanged. -/
def applyOp (t : GpuHashTable) : Op → GpuHashTable
  | Op.insert ks vs => (insertBatch t ks vs).1
  | Op.reshapeTo c => reshape t c
  | Op.get _ => t

/-- State after a sequence of operations. -/
def runOps (t : GpuHashTable) : List Op → GpuHashTable
  | [] => t
  | o :: ops => runOps (applyOp t o) ops

/-- State after a sequence of insert batches. -/
def runInserts (t : GpuHashTable) : List (List Nat × List Nat) → GpuHashTable
  | [] => t
  | b :: bs => runInserts (insertBatch t b.1 b.2).1 bs

/-- Abstract model of the same sequence of insert batches. -/
def runModel (m : List (Nat × Nat)) : List (List Nat × List Nat) → List (Nat × Nat)
  | [] => m
  | b :: bs => runModel (batchUpd m b.1 b.2) bs

/-! ### Error bounds for the binary32 model

`rnd24Aux x e` moves `x` by at most half a granule `2 ^ (e - 1)`, and for
`x ≥ 2 ^ 24` the granule exponent chosen by `rnd24` satisfies
`2 ^ (e - 1) * 2 ^ 24 ≤ x`, giving the standard half-ulp relative error
`|rnd24 x - x| ≤ x / 2 ^ 24`. -/
theorem round_close_lo (x r A P : Nat) (hdm : P + r = x) (hr : r ≤ A) :
    x ≤ P + A ∧ P ≤ x + A := by omega

theorem round_close_hi (x r B A P : Nat) (hdm : P + r = x) (hrlt : r < B)
    (hB : B = A * 2) (hr : A ≤ r) :
    x ≤ P + B + A ∧ P + B ≤ x + A := by omega

theorem rnd24Aux_close (x e : Nat) (he : 1 ≤ e) :
    x ≤ rnd24Aux x e + 2 ^ (e - 1) ∧ rnd24Aux x e ≤ x + 2 ^ (e - 1) := by
  have hB : 2 ^ e = 2 ^ (e - 1) * 2 := by
    conv_lhs => rw [← Nat.sub_add_cancel he]
    rw [pow_succ]
  have hdm : x / 2 ^ e * 2 ^ e + x % 2 ^ e = x := by
    rw [Nat.mul_comm]
    exact Nat.div_add_mod x (2 ^ e)
  have hrlt : x % 2 ^ e < 2 ^ e := Nat.mod_lt x (Nat.pow_pos (by norm_num))
  unfold rnd24Aux
  simp only [Nat.add_mul, Nat.one_mul]
  rcases Nat.lt_trichotomy (x % 2 ^ e) (2 ^ (e - 1)) with hc | hc | hc
  · rw [if_pos hc]
    exact round_close_lo x (x % 2 ^ e) (2 ^ (e - 1)) (x / 2 ^ e * 2 ^ e) hdm
      (Nat.le_of_lt hc)
  · rw [if_neg (by rw [hc]; exact lt_irrefl _), if_neg (by rw [hc]; exact lt_irrefl _)]
    by_cases hpar : x / 2 ^ e % 2 = 0
    · rw [if_pos hpar]
      exact round_close_lo x (x % 2 ^ e) (2 ^ (e - 1)) (x / 2 ^ e * 2 ^ e) hdm
        (Nat.le_of_eq hc)
    · rw [if_neg hpar]
      exact round_close_hi x (x % 2 ^ e) (2 ^ e) (2 ^ (e - 1)) (x / 2 ^ e * 2 ^ e)
        hdm hrlt hB (Nat.le_of_eq hc.symm)
  · rw [if_neg (Nat.lt_asymm hc), if_pos hc]
    exact round_close_hi x (x % 2 ^ e) (2 ^ e) (2 ^ (e - 1)) (x / 2 ^ e * 2 ^ e)
      hdm hrlt hB (Nat.le_of_lt hc)

theorem rnd24_close (x : Nat) :
    ∃ A, 16777216 * A ≤ x ∧ x ≤ rnd24 x + A ∧ rnd24 x ≤ x + A := by
  by_cases hx : x < 16777216
  · refine ⟨0, by omega, ?_, ?_⟩ <;> unfold rnd24 <;> rw [if_pos hx] <;> omega
  · have hx0 : x ≠ 0 := by omega
    have hlog : 24 ≤ Nat.log2 x := (Nat.le_log2 hx0).mpr (by omega)
    have he1 : 1 ≤ Nat.log2 x - 23 := by omega
    have hA : 16777216 * 2 ^ (Nat.log2 x - 23 - 1) ≤ x := by
      have h1 : 2 ^ Nat.log2 x ≤ x := Nat.log2_self_le hx0
      have h2 : 24 + (Nat.log2 x - 23 - 1) = Nat.log2 x := by omega
      calc 16777216 * 2 ^ (Nat.log2 x - 23 - 1)
          = 2 ^ 24 * 2 ^ (Nat.log2 x - 23 - 1) := by norm_num
        _ = 2 ^ (24 + (Nat.log2 x - 23 - 1)) := (pow_add 2 24 _).symm
        _ = 2 ^ Nat.log2 x := by rw [h2]
        _ ≤ x := h1
    have hclose := rnd24Aux_close x (Nat.log2 x - 23) he1
    refine ⟨2 ^ (Nat.log2 x - 23 - 1), hA, ?_, ?_⟩ <;>
      unfold rnd24 <;> rw [if_neg hx]
    · exact hclose.1
    · exact hclose.2

/-- Lower relative-error bound of the binary32 conversion. -/
theorem rnd24_lower (x : Nat) : 16777215 * x ≤ 16777216 * rnd24 x := by
  obtain ⟨A, hAx, hlo, hhi⟩ := rnd24_close x
  omega

/-- Upper relative-error bound of the binary32 conversion. -/
theorem rnd24_upper (x : Nat) : 16777216 * rnd24 x ≤ 16777217 * x := by
  obtain ⟨A, hAx, hlo, hhi⟩ := rnd24_close x
  omega

/-- The resized capacity `2 * rnd24 (used + n)` still holds the projected
count: rounding loses strictly less than the factor two gains. -/
theorem le_two_mul_rnd24 (x : Nat) : x ≤ 2 * rnd24 x := by
  have h := rnd24_lower x
  omega

/-- When the float guard is false the projected count fits the capacity:
`(float)P / (float)cap ≤ 0.8f < 1` forces `P ≤ cap` through the error
bounds of the two conversions. -/
theorem loadFactorGtMax_false_le {projected cap : Nat}
    (h : ¬ loadFactorGtMax projected cap) : projected ≤ cap := by
  unfold loadFactorGtMax at h
  push_neg at h
  obtain ⟨hcap0, hlt⟩ := h
  have h1 := rnd24_lower projected
  have h2 := rnd24_upper cap
  omega

theorem probeFind_some {p : Nat → Bool} {cap : Nat} :
    ∀ {fuel idx r : Nat}, idx < cap → probeFind p cap fuel idx = some r →
      ∃ j, j < fuel ∧ r = (idx + j) % cap ∧ p r = true ∧
        ∀ j', j' < j → p ((idx + j') % cap) = false := by
  intro fuel
  induction fuel with
  | zero => intro idx r _ h; simp [probeFind] at h
  | succ n ih =>
    intro idx r hidx h
    rw [probeFind] at h
    by_cases hp : p idx
    · rw [if_pos hp] at h
      cases h
      exact ⟨0, Nat.succ_pos n, by rw [Nat.add_zero, Nat.mod_eq_of_lt hidx], hp,
        fun j' hj' => absurd hj' (Nat.not_lt_zero j')⟩
    · rw [if_neg hp] at h
      have hcap : 0 < cap := Nat.lt_of_le_of_lt (Nat.zero_le idx) hidx
      have hidx' : (idx + 1) % cap < cap := Nat.mod_lt _ hcap
      obtain ⟨j, hj, hr, hpr, hfirst⟩ := ih hidx' h
      refine ⟨j + 1, by omega, ?_, hpr, ?_⟩
      · rw [hr, Nat.mod_add_mod, Nat.add_assoc, Nat.add_comm 1 j]
      · intro j' hj'
        cases j' with
        | zero =>
          rw [Nat.add_zero, Nat.mod_eq_of_lt hidx]
          exact Bool.eq_false_iff.mpr hp
        | succ j'' =>
          have hj2 := hfirst j'' (by omega)
          rwa [Nat.mod_add_mod, Nat.add_assoc, Nat.add_comm 1 j''] at hj2

theorem probeFind_none {p : Nat → Bool} {cap : Nat} :
    ∀ {fuel idx : Nat}, idx < cap → probeFind p cap fuel idx = none →
      ∀ j, j < fuel → p ((idx + j) % cap) = false := by
  intro fuel
  induction fuel with
  | zero => intro idx _ _ j hj; exact absurd hj (Nat.not_lt_zero j)
  | succ n ih =>
    intro idx hidx h j hj
    rw [probeFind] at h
    by_cases hp : p idx
    · rw [if_pos hp] at h; exact absurd h (by simp)
    · rw [if_neg hp] at h
      have hcap : 0 < cap := Nat.lt_of_le_of_lt (Nat.zero_le idx) hidx
      have hidx' : (idx + 1) % cap < cap := Nat.mod_lt _ hcap
      cases j with
      | zero =>
        rw [Nat.add_zero, Nat.mod_eq_of_lt hidx]
        exact Bool.eq_false_iff.mpr hp
      | succ j' =>
        have hj2 := ih hidx' h j' (by omega)
        rwa [Nat.mod_add_mod, Nat.add_assoc, Nat.add_comm 1 j'] at hj2

theorem probeFind_first {p : Nat → Bool} {cap : Nat} :
    ∀ {fuel j idx : Nat}, idx < cap → j < fuel → p ((idx + j) % cap) = true →
      (∀ j', j' < j → p ((idx + j') % cap) = false) →
      probeFind p cap fuel idx = some ((idx + j) % cap) := by
  intro fuel
  induction fuel with
  | zero => intro j idx _ hj; exact absurd hj (Nat.not_lt_zero j)
  | succ n ih =>
    intro j idx hidx hj hpj hfirst
    rw [probeFind]
    cases j with
    | zero =>
      simp only [Nat.add_zero, Nat.mod_eq_of_lt hidx] at hpj ⊢
      rw [if_pos hpj]
    | succ j' =>
      have hp0 : p idx = false := by
        have := hfirst 0 (Nat.succ_pos j')
        rwa [Nat.add_zero, Nat.mod_eq_of_lt hidx] at this
      rw [if_neg (by simp [hp0])]
      have hcap : 0 < cap := Nat.lt_of_le_of_lt (Nat.zero_le idx) hidx
      have hidx' : (idx + 1) % cap < cap := Nat.mod_lt _ hcap
      have heq : ∀ m : Nat, ((idx + 1) % cap + m) % cap = (idx + (m + 1)) % cap := by
        intro m
        rw [Nat.mod_add_mod, Nat.add_assoc, Nat.add_comm 1 m]
      have hpj' : p (((idx + 1) % cap + j') % cap) = true := by rw [heq]; exact hpj
      have hfirst' : ∀ j'', j'' < j' → p (((idx + 1) % cap + j'') % cap) = false := by
        intro j'' hj''
        rw [heq]
        exact hfirst (j'' + 1) (by omega)
      have := ih hidx' (by omega) hpj' hfirst'
      rw [this, heq]

theorem exists_probe_offset {cap i idx : Nat} (hi : i < cap) (hidx : idx < cap) :
    ∃ j, j < cap ∧ (idx + j) % cap = i := by
  have hcap : 0 < cap := Nat.lt_of_le_of_lt (Nat.zero_le i) hi
  refine ⟨(cap + i - idx) % cap, Nat.mod_lt _ hcap, ?_⟩
  rw [Nat.add_mod_mod]
  have h1 : idx + (cap + i - idx) = cap + i := by omega
  rw [h1, Nat.add_mod_left, Nat.mod_eq_of_lt hi]

theorem probeFind_isSome {p : Nat → Bool} {cap idx : Nat} (hidx : idx < cap)
    (h : ∃ i, i < cap ∧ p i = true) : ∃ r, probeFind p cap cap idx = some r := by
  obtain ⟨i, hi, hpi⟩ := h
  cases hfind : probeFind p cap cap idx with
  | some r => exact ⟨r, rfl⟩
  | none =>
    obtain ⟨j, hj, hji⟩ := exists_probe_offset hi hidx
    have := probeFind_none hidx hfind j hj
    rw [hji] at this
    rw [this] at hpi
    exact absurd hpi (by simp)

theorem probeFind_congr {p q : Nat → Bool} {cap : Nat}
    (hpq : ∀ i, i < cap → p i = q i) :
    ∀ {fuel idx : Nat}, idx < cap →
      probeFind p cap fuel idx = probeFind q cap fuel idx := by
  intro fuel
  induction fuel with
  | zero => intro idx _; rfl
  | succ n ih =>
    intro idx hidx
    rw [probeFind, probeFind, hpq idx hidx]
    by_cases hq : q idx
    · rw [if_pos hq, if_pos hq]
    · rw [if_neg hq, if_neg hq]
      have hcap : 0 < cap := Nat.lt_of_le_of_lt (Nat.zero_le idx) hidx
      exact ih (Nat.mod_lt _ hcap)

/-! ### Characterizing the kernel probe loops by `probeFind` -/
theorem insertLoop_eq (tbl : List TableEntry) (cap k v : Nat) :
    ∀ fuel idx, insertLoop tbl cap k v fuel idx =
      match probeFind (stopIns tbl k) cap fuel idx with
      | some i => (tbl.set i ⟨k, v⟩, keyAt tbl i == k)
      | none => (tbl, false) := by
  intro fuel
  induction fuel with
  | zero => intro idx; rfl
  | succ n ih =>
    intro idx
    rw [insertLoop, probeFind]
    by_cases hp : stopIns tbl k idx
    · rw [if_pos (by simpa [stopIns] using hp)]
      simp only [hp, stopIns] at *
      rw [if_pos hp]
    · rw [if_neg (by simpa [stopIns] using hp)]
      rw [if_neg hp]
      exact ih ((idx + 1) % cap)

theorem reshapeLoop_eq (tbl : List TableEntry) (cap k v : Nat) :
    ∀ fuel idx, reshapeLoop tbl cap k v fuel idx =
      match probeFind (stopEmpty tbl) cap fuel idx with
      | some i => tbl.set i ⟨k, v⟩
      | none => tbl := by
  intro fuel
  induction fuel with
  | zero => intro idx; rfl
  | succ n ih =>
    intro idx
    rw [reshapeLoop, probeFind]
    by_cases hp : stopEmpty tbl idx
    · rw [if_pos (by simpa [stopEmpty] using hp), if_pos hp]
    · rw [if_neg (by simpa [stopEmpty] using hp), if_neg hp]
      exact ih ((idx + 1) % cap)

theorem getLoop_eq (tbl : List TableEntry) (cap k : Nat) :
    ∀ fuel idx, getLoop tbl cap k fuel idx =
      match probeFind (stopGet tbl k) cap fuel idx with
      | some i => some (entryAt tbl i).value
      | none => none := by
  intro fuel
  induction fuel with
  | zero => intro idx; rfl
  | succ n ih =>
    intro idx
    rw [getLoop, probeFind]
    by_cases hp : stopGet tbl k idx
    · rw [if_pos (by simpa [stopGet] using hp), if_pos hp]
    · rw [if_neg (by simpa [stopGet] using hp), if_neg hp]
      exact ih ((idx + 1) % cap)

/-! ### Basic slot-access lemmas -/
theorem entryAt_eq_getElem {tbl : List TableEntry} {i : Nat} (h : i < tbl.length) :
    entryAt tbl i = tbl[i] := by
  simp [entryAt, List.getD_eq_getElem?_getD, List.getElem?_eq_getElem h]

theorem entryAt_set_self {tbl : List TableEntry} {i : Nat} (h : i < tbl.length)
    (e : TableEntry) : entryAt (tbl.set i e) i = e := by
  simp [entryAt, List.getD_eq_getElem?_getD, List.getElem?_set_self h]

theorem entryAt_set_ne {tbl : List TableEntry} {i j : Nat} (h : i ≠ j)
    (e : TableEntry) : entryAt (tbl.set i e) j = entryAt tbl j := by
  simp [entryAt, List.getD_eq_getElem?_getD, List.getElem?_set_ne h]

theorem keyAt_set_self {tbl : List TableEntry} {i : Nat} (h : i < tbl.length)
    (e : TableEntry) : keyAt (tbl.set i e) i = e.key := by
  simp [keyAt, entryAt_set_self h]

theorem keyAt_set_ne {tbl : List TableEntry} {i j : Nat} (h : i ≠ j)
    (e : TableEntry) : keyAt (tbl.set i e) j = keyAt tbl j := by
  simp [keyAt, entryAt_set_ne h]

theorem entryAt_replicate_invalid (n i : Nat) :
    entryAt (List.replicate n ⟨KEY_INVALID, KEY_INVALID⟩) i = ⟨KEY_INVALID, KEY_INVALID⟩ := by
  simp only [entryAt, List.getD_eq_getElem?_getD, List.getElem?_replicate]
  by_cases h : i < n <;> simp [h]

theorem keyAt_replicate_invalid (n i : Nat) :
    keyAt (List.replicate n ⟨KEY_INVALID, KEY_INVALID⟩) i = KEY_INVALID := by
  simp [keyAt, entryAt_replicate_invalid]

theorem entryAt_cons_zero (e : TableEntry) (tbl : List TableEntry) :
    entryAt (e :: tbl) 0 = e := rfl

theorem entryAt_cons_succ (e : TableEntry) (tbl : List TableEntry) (i : Nat) :
    entryAt (e :: tbl) (i + 1) = entryAt tbl i := rfl

theorem lookupA_updA_self (m : List (Nat × Nat)) (k v : Nat) :
    lookupA (updA m k v) k = some v := by
  induction m with
  | nil => simp [updA, lookupA]
  | cons p rest ih =>
    by_cases h : p.1 = k
    · simp [updA, h, lookupA]
    · simp [updA, h, lookupA, ih]

theorem lookupA_updA_ne (m : List (Nat × Nat)) {k k' : Nat} (v : Nat) (h : k' ≠ k) :
    lookupA (updA m k v) k' = lookupA m k' := by
  have hkk : ¬ (k = k') := fun he => h he.symm
  induction m with
  | nil => simp [updA, lookupA, hkk]
  | cons p rest ih =>
    by_cases hp : p.1 = k
    · have hpk : ¬ (p.1 = k') := by rw [hp]; exact hkk
      rw [updA, if_pos hp]
      simp only [lookupA, if_neg hkk, if_neg hpk]
    · rw [updA, if_neg hp]
      simp only [lookupA, ih]

theorem length_updA (m : List (Nat × Nat)) (k v : Nat) :
    (updA m k v).length = if lookupA m k = none then m.length + 1 else m.length := by
  induction m with
  | nil => simp [updA, lookupA]
  | cons p rest ih =>
    by_cases hp : p.1 = k
    · simp [updA, hp, lookupA]
    · simp only [updA, if_neg hp, lookupA, List.length_cons, ih]
      by_cases hl : lookupA rest k = none <;> simp [hl, hp]

theorem lookupA_eq_none_iff (m : List (Nat × Nat)) (k : Nat) :
    lookupA m k = none ↔ k ∉ m.map Prod.fst := by
  induction m with
  | nil => simp [lookupA]
  | cons p rest ih =>
    by_cases hp : p.1 = k
    · simp [lookupA, hp]
    · simp only [lookupA, if_neg hp, List.map_cons, List.mem_cons, ih]
      constructor
      · intro hnk hor
        rcases hor with h1 | h1
        · exact hp h1.symm
        · exact hnk h1
      · intro hall h1
        exact hall (Or.inr h1)

theorem keysA_updA_subset (m : List (Nat × Nat)) (k v : Nat) :
    ∀ k' ∈ (updA m k v).map Prod.fst, k' = k ∨ k' ∈ m.map Prod.fst := by
  induction m with
  | nil => simp [updA]
  | cons p rest ih =>
    by_cases hp : p.1 = k
    · simp only [updA, if_pos hp]
      intro k' hk'
      simp only [List.map_cons, List.mem_cons] at hk' ⊢
      rcases hk' with h | h
      · exact Or.inl h
      · exact Or.inr (Or.inr h)
    · simp only [updA, if_neg hp]
      intro k' hk'
      simp only [List.map_cons, List.mem_cons] at hk' ⊢
      rcases hk' with h | h
      · exact Or.inr (Or.inl h)
      · rcases ih k' h with h' | h'
        · exact Or.inl h'
        · exact Or.inr (Or.inr h')

theorem nodup_keysA_updA {m : List (Nat × Nat)} (k v : Nat)
    (hnd : (m.map Prod.fst).Nodup) : ((updA m k v).map Prod.fst).Nodup := by
  induction m with
  | nil => simp [updA]
  | cons p rest ih =>
    simp only [List.map_cons, List.nodup_cons] at hnd
    by_cases hp : p.1 = k
    · rw [updA, if_pos hp]
      simp only [List.map_cons, List.nodup_cons]
      exact ⟨hp ▸ hnd.1, hnd.2⟩
    · rw [updA, if_neg hp]
      simp only [List.map_cons, List.nodup_cons]
      refine ⟨?_, ih hnd.2⟩
      intro hmem
      rcases keysA_updA_subset rest k v p.1 hmem with h | h
      · exact hp h
      · exact hnd.1 h

theorem mem_updA {m : List (Nat × Nat)} {k v k' v' : Nat}
    (hnd : (m.map Prod.fst).Nodup) :
    (k', v') ∈ updA m k v ↔ (k' = k ∧ v' = v) ∨ ((k', v') ∈ m ∧ k' ≠ k) := by
  induction m with
  | nil =>
    simp only [updA, List.mem_singleton, List.not_mem_nil, false_and, or_false,
      Prod.mk.injEq]
  | cons p rest ih =>
    simp only [List.map_cons, List.nodup_cons] at hnd
    by_cases hp : p.1 = k
    · rw [updA, if_pos hp]
      simp only [List.mem_cons, Prod.mk.injEq]
      constructor
      · rintro (⟨h1, h2⟩ | h)
        · exact Or.inl ⟨h1, h2⟩
        · refine Or.inr ⟨Or.inr h, fun hk => ?_⟩
          apply hnd.1
          rw [hp, ← hk]
          exact List.mem_map_of_mem Prod.fst h
      · rintro (⟨h1, h2⟩ | ⟨h1, h2⟩)
        · exact Or.inl ⟨h1, h2⟩
        · rcases h1 with h3 | h3
          · exact absurd ((congrArg Prod.fst h3).trans hp) h2
          · exact Or.inr h3
    · rw [updA, if_neg hp]
      simp only [List.mem_cons, ih hnd.2, Prod.mk.injEq]
      constructor
      · rintro (h | h | h)
        · exact Or.inr ⟨Or.inl h, fun hk => hp (((congrArg Prod.fst h).symm).trans hk)⟩
        · exact Or.inl h
        · exact Or.inr ⟨Or.inr h.1, h.2⟩
      · rintro (h | ⟨h1, h2⟩)
        · exact Or.inr (Or.inl h)
        · rcases h1 with h3 | h3
          · exact Or.inl h3
          · exact Or.inr (Or.inr ⟨h3, h2⟩)

theorem lookupA_eq_some_iff_mem {m : List (Nat × Nat)} {k v : Nat}
    (hnd : (m.map Prod.fst).Nodup) : lookupA m k = some v ↔ (k, v) ∈ m := by
  induction m with
  | nil => simp [lookupA]
  | cons p rest ih =>
    simp only [List.map_cons, List.nodup_cons] at hnd
    by_cases hp : p.1 = k
    · simp only [lookupA, if_pos hp, List.mem_cons]
      constructor
      · intro h
        cases h
        exact Or.inl (by rw [← hp])
      · intro h
        rcases h with h | h
        · rw [← h]
        · have : k ∈ rest.map Prod.fst := by
            simpa using List.mem_map_of_mem Prod.fst h
          exact absurd (hp ▸ this) hnd.1
    · simp only [lookupA, if_neg hp, ih hnd.2, List.mem_cons]
      constructor
      · exact fun h => Or.inr h
      · intro h
        rcases h with h | h
        · exact absurd (by rw [h] : p = (k, v)) (by intro he; exact hp (by rw [he]))
        · exact h

theorem keyAt_cons_zero (e : TableEntry) (tbl : List TableEntry) :
    keyAt (e :: tbl) 0 = e.key := rfl

theorem keyAt_cons_succ (e : TableEntry) (tbl : List TableEntry) (i : Nat) :
    keyAt (e :: tbl) (i + 1) = keyAt tbl i := rfl

theorem mem_entries {tbl : List TableEntry} {k v : Nat} :
    (k, v) ∈ entries tbl ↔
      ∃ i, i < tbl.length ∧ entryAt tbl i = ⟨k, v⟩ ∧ k ≠ KEY_INVALID := by
  induction tbl with
  | nil => simp [entries]
  | cons e rest ih =>
    constructor
    · intro h
      rw [entries] at h
      by_cases he : e.key = KEY_INVALID
      · rw [if_pos he] at h
        obtain ⟨i, hi, hent, hk⟩ := ih.mp h
        exact ⟨i + 1, by simp [hi], by rwa [entryAt_cons_succ], hk⟩
      · rw [if_neg he] at h
        rcases List.mem_cons.mp h with h0 | h1
        · have hk : k = e.key := congrArg Prod.fst h0
          have hv : v = e.value := congrArg Prod.snd h0
          refine ⟨0, by simp, ?_, hk ▸ he⟩
          rw [entryAt_cons_zero, hk, hv]
        · obtain ⟨i, hi, hent, hk⟩ := ih.mp h1
          exact ⟨i + 1, by simp [hi], by rwa [entryAt_cons_succ], hk⟩
    · rintro ⟨i, hi, hent, hk⟩
      rw [entries]
      by_cases he : e.key = KEY_INVALID
      · rw [if_pos he]
        cases i with
        | zero =>
          rw [entryAt_cons_zero] at hent
          rw [hent] at he
          exact absurd he hk
        | succ i' =>
          rw [entryAt_cons_succ] at hent
          exact ih.mpr ⟨i', by simpa using hi, hent, hk⟩
      · rw [if_neg he]
        cases i with
        | zero =>
          rw [entryAt_cons_zero] at hent
          rw [hent]
          exact List.mem_cons_self _ _
        | succ i' =>
          rw [entryAt_cons_succ] at hent
          exact List.mem_cons_of_mem _ (ih.mpr ⟨i', by simpa using hi, hent, hk⟩)

theorem countLive_eq_length_entries (tbl : List TableEntry) :
    countLive tbl = (entries tbl).length := by
  induction tbl with
  | nil => rfl
  | cons e rest ih =>
    by_cases he : e.key = KEY_INVALID <;> simp [countLive, entries, he, ih, Nat.add_comm]

theorem countLive_le_length (tbl : List TableEntry) : countLive tbl ≤ tbl.length := by
  induction tbl with
  | nil => exact Nat.le_refl 0
  | cons e rest ih =>
    rw [countLive, List.length_cons]
    by_cases he : e.key = KEY_INVALID
    · rw [if_pos he]; omega
    · rw [if_neg he]; omega

theorem exists_empty_slot {tbl : List TableEntry} (h : countLive tbl < tbl.length) :
    ∃ i, i < tbl.length ∧ keyAt tbl i = KEY_INVALID := by
  induction tbl with
  | nil => exact absurd h (by simp)
  | cons e rest ih =>
    by_cases he : e.key = KEY_INVALID
    · exact ⟨0, by simp, by rw [keyAt_cons_zero]; exact he⟩
    · rw [countLive, if_neg he, List.length_cons] at h
      obtain ⟨i, hi, hk⟩ := ih (by omega)
      exact ⟨i + 1, by simpa using hi, by rwa [keyAt_cons_succ]⟩

theorem countLive_set {tbl : List TableEntry} {i : Nat} (hi : i < tbl.length)
    {e : TableEntry} (hnew : e.key ≠ KEY_INVALID) :
    countLive (tbl.set i e) =
      if keyAt tbl i = KEY_INVALID then countLive tbl + 1 else countLive tbl := by
  induction tbl generalizing i with
  | nil => exact absurd hi (by simp)
  | cons f rest ih =>
    cases i with
    | zero =>
      rw [List.set_cons_zero, keyAt_cons_zero, countLive, countLive, if_neg hnew]
      by_cases hf : f.key = KEY_INVALID
      · rw [if_pos hf, if_pos hf]; omega
      · rw [if_neg hf, if_neg hf]
    | succ i' =>
      rw [List.set_cons_succ, keyAt_cons_succ, countLive, countLive,
        ih (by simpa using hi)]
      by_cases hr : keyAt rest i' = KEY_INVALID
      · rw [if_pos hr, if_pos hr]; omega
      · rw [if_neg hr, if_neg hr]

theorem mem_iff_of_represents {tbl : List TableEntry} {m : List (Nat × Nat)}
    (h : Represents tbl m) {p : Nat × Nat} : p ∈ m ↔ p ∈ entries tbl :=
  ⟨fun hp => h.2.2.2 p hp, fun hp => h.2.2.1 p hp⟩

/-- A key with no binding in the model is stored in no slot. -/
theorem absent_of_lookupA_none {tbl : List TableEntry} {m : List (Nat × Nat)}
    {k : Nat} (hrep : Represents tbl m) (hk : k ≠ KEY_INVALID)
    (hl : lookupA m k = none) : ∀ j, j < tbl.length → keyAt tbl j ≠ k := by
  intro j hj hkey
  have hment : (k, (entryAt tbl j).value) ∈ entries tbl := by
    refine mem_entries.mpr ⟨j, hj, ?_, hk⟩
    rw [← hkey]
    rfl
  have hm : (k, (entryAt tbl j).value) ∈ m := (mem_iff_of_represents hrep).mpr hment
  have : k ∈ m.map Prod.fst := by simpa using List.mem_map_of_mem Prod.fst hm
  exact (lookupA_eq_none_iff m k).mp hl this

/-- A key bound in the model is stored, with its bound value, in some slot. -/
theorem present_of_lookupA_some {tbl : List TableEntry} {m : List (Nat × Nat)}
    {k v : Nat} (hrep : Represents tbl m) (hl : lookupA m k = some v) :
    ∃ j, j < tbl.length ∧ entryAt tbl j = ⟨k, v⟩ ∧ k ≠ KEY_INVALID := by
  have hm : (k, v) ∈ m := (lookupA_eq_some_iff_mem hrep.1).mp hl
  exact mem_entries.mp ((mem_iff_of_represents hrep).mp hm)

/-! ### Bridging the Bool stop conditions and Props -/
theorem stopIns_true_iff {tbl : List TableEntry} {k i : Nat} :
    stopIns tbl k i = true ↔ keyAt tbl i = KEY_INVALID ∨ keyAt tbl i = k := by
  simp [stopIns]

theorem stopIns_false_iff {tbl : List TableEntry} {k i : Nat} :
    stopIns tbl k i = false ↔ keyAt tbl i ≠ KEY_INVALID ∧ keyAt tbl i ≠ k := by
  simp [stopIns]

theorem stopEmpty_true_iff {tbl : List TableEntry} {i : Nat} :
    stopEmpty tbl i = true ↔ keyAt tbl i = KEY_INVALID := by
  simp [stopEmpty]

theorem stopEmpty_false_iff {tbl : List TableEntry} {i : Nat} :
    stopEmpty tbl i = false ↔ keyAt tbl i ≠ KEY_INVALID := by
  simp [stopEmpty]

theorem stopGet_true_iff {tbl : List TableEntry} {k i : Nat} :
    stopGet tbl k i = true ↔ k = keyAt tbl i := by
  simp [stopGet]

theorem stopGet_false_iff {tbl : List TableEntry} {k i : Nat} :
    stopGet tbl k i = false ↔ k ≠ keyAt tbl i := by
  simp [stopGet]

/-! ### Consequences of well-formedness -/
/-- Two live slots never hold the same key: both would be the unique first
stop of the same probe scan. -/
theorem live_key_unique {tbl : List TableEntry} (hWF : WF tbl) {i j : Nat}
    (hi : i < tbl.length) (hj : j < tbl.length)
    (hki : keyAt tbl i ≠ KEY_INVALID) (heq : keyAt tbl i = keyAt tbl j) : i = j := by
  have hkj : keyAt tbl j ≠ KEY_INVALID := heq ▸ hki
  have f1 := hWF i hi hki
  have f2 := hWF j hj hkj
  unfold findable at f1 f2
  rw [← heq] at f2
  exact Option.some.inj (f1.symm.trans f2)

/-- Well-formedness depends only on the keys of the slots. -/
theorem WF_congr_keys {tbl tbl' : List TableEntry}
    (hlen : tbl'.length = tbl.length)
    (hkeys : ∀ x, keyAt tbl' x = keyAt tbl x) (hWF : WF tbl) : WF tbl' := by
  intro i hi hki
  have hstop : ∀ k' x, x < tbl.length → stopIns tbl' k' x = stopIns tbl k' x := by
    intro k' x _
    simp [stopIns, hkeys x]
  unfold findable
  rw [hlen, hkeys i]
  have hcap : 0 < tbl.length := by omega
  have hhome : hashFunc (keyAt tbl i) % tbl.length < tbl.length := Nat.mod_lt _ hcap
  rw [probeFind_congr (hstop (keyAt tbl i)) hhome]
  exact hWF i (hlen ▸ hi) (by rw [← hkeys i]; exact hki)

/-- Membership in `entries` after overwriting an empty slot with a live
entry. -/
theorem mem_entries_set_fresh {tbl : List TableEntry} {i k v : Nat}
    (hi : i < tbl.length) (hikey : keyAt tbl i = KEY_INVALID)
    (hk : k ≠ KEY_INVALID) {p : Nat × Nat} :
    p ∈ entries (tbl.set i ⟨k, v⟩) ↔ p = (k, v) ∨ p ∈ entries tbl := by
  obtain ⟨k', v'⟩ := p
  constructor
  · intro h
    obtain ⟨j, hj, hent, hk'⟩ := mem_entries.mp h
    rw [List.length_set] at hj
    by_cases hji : j = i
    · subst hji
      rw [entryAt_set_self hj] at hent
      have h1 : k = k' := congrArg TableEntry.key hent
      have h2 : v = v' := congrArg TableEntry.value hent
      exact Or.inl (by rw [← h1, ← h2])
    · rw [entryAt_set_ne (fun he => hji he.symm)] at hent
      exact Or.inr (mem_entries.mpr ⟨j, hj, hent, hk'⟩)
  · intro h
    rcases h with h | h
    · have hk' : k' = k := congrArg Prod.fst h
      have hv' : v' = v := congrArg Prod.snd h
      subst hk'; subst hv'
      exact mem_entries.mpr ⟨i, by simpa using hi, entryAt_set_self hi _, hk⟩
    · obtain ⟨j, hj, hent, hk'⟩ := mem_entries.mp h
      have hji : j ≠ i := by
        intro he
        apply hk'
        show k' = KEY_INVALID
        have hkeyj : keyAt tbl j = k' := by rw [keyAt, hent]
        rw [← hkeyj, he, hikey]
      exact mem_entries.mpr ⟨j, by simpa using hj,
        by rwa [entryAt_set_ne (fun he => hji he.symm)], hk'⟩

/-- Membership in `entries` after overwriting the (unique) slot holding `k`
with a new value for `k`. -/
theorem mem_entries_set_update {tbl : List TableEntry} (hWF : WF tbl)
    {i k v : Nat} (hi : i < tbl.length) (hikey : keyAt tbl i = k)
    (hk : k ≠ KEY_INVALID) {p : Nat × Nat} :
    p ∈ entries (tbl.set i ⟨k, v⟩) ↔ p = (k, v) ∨ (p ∈ entries tbl ∧ p.1 ≠ k) := by
  obtain ⟨k', v'⟩ := p
  constructor
  · intro h
    obtain ⟨j, hj, hent, hk'⟩ := mem_entries.mp h
    rw [List.length_set] at hj
    by_cases hji : j = i
    · subst hji
      rw [entryAt_set_self hj] at hent
      have h1 : k = k' := congrArg TableEntry.key hent
      have h2 : v = v' := congrArg TableEntry.value hent
      exact Or.inl (by rw [← h1, ← h2])
    · rw [entryAt_set_ne (fun he => hji he.symm)] at hent
      refine Or.inr ⟨mem_entries.mpr ⟨j, hj, hent, hk'⟩, ?_⟩
      show k' ≠ k
      intro hkk
      apply hji
      have hkeyj : keyAt tbl j = k' := by rw [keyAt, hent]
      refine live_key_unique hWF hj hi ?_ ?_
      · rw [hkeyj]; exact hk'
      · rw [hkeyj, hikey, hkk]
  · intro h
    rcases h with h | ⟨h, hne⟩
    · have hk' : k' = k := congrArg Prod.fst h
      have hv' : v' = v := congrArg Prod.snd h
      subst hk'; subst hv'
      exact mem_entries.mpr ⟨i, by simpa using hi, entryAt_set_self hi _, hk⟩
    · obtain ⟨j, hj, hent, hk'⟩ := mem_entries.mp h
      have hji : j ≠ i := by
        intro he
        apply hne
        show k' = k
        have hkeyj : keyAt tbl j = k' := by rw [keyAt, hent]
        rw [← hkeyj, he, hikey]
      exact mem_entries.mpr ⟨j, by simpa using hj,
        by rwa [entryAt_set_ne (fun he => hji he.symm)], hk'⟩

/-- If no slot holds `k`, the model has no binding for `k` either. -/
theorem lookupA_none_of_absent {tbl : List TableEntry} {m : List (Nat × Nat)}
    {k : Nat} (hrep : Represents tbl m)
    (habs : ∀ j, j < tbl.length → keyAt tbl j ≠ k) : lookupA m k = none := by
  rw [lookupA_eq_none_iff]
  intro hmem
  obtain ⟨p, hp, hpk⟩ := List.mem_map.mp hmem
  have hent : p ∈ entries tbl := (mem_iff_of_represents hrep).mp hp
  obtain ⟨k', v'⟩ := p
  have hk' : k' = k := hpk
  obtain ⟨j, hj, hentj, _⟩ := mem_entries.mp hent
  refine habs j hj ?_
  rw [keyAt, hentj]
  exact hk'

/-- Claiming the first empty slot along `k`'s probe sequence for an absent key
`k` preserves well-formedness and refines `updA`: the combinatorial core of
both `kernelInsert`'s new-insertion branch and `kernelReshape`. -/
theorem fresh_slot_spec {tbl : List TableEntry} {m : List (Nat × Nat)} {k : Nat} (v : Nat)
    (hWF : WF tbl) (hrep : Represents tbl m) (hCL : countLive tbl = m.length)
    (hk : k ≠ KEY_INVALID) (habs : ∀ j, j < tbl.length → keyAt tbl j ≠ k)
    (hroom : m.length < tbl.length) :
    ∃ i, i < tbl.length ∧ keyAt tbl i = KEY_INVALID ∧
      probeFind (stopEmpty tbl) tbl.length tbl.length (hashFunc k % tbl.length) = some i ∧
      WF (tbl.set i ⟨k, v⟩) ∧ Represents (tbl.set i ⟨k, v⟩) (updA m k v) ∧
      countLive (tbl.set i ⟨k, v⟩) = m.length + 1 ∧
      (updA m k v).length = m.length + 1 := by
  have hcap : 0 < tbl.length := by omega
  have hhome : hashFunc k % tbl.length < tbl.length := Nat.mod_lt _ hcap
  obtain ⟨i₀, hi₀, hk₀⟩ := exists_empty_slot (by omega : countLive tbl < tbl.length)
  obtain ⟨i, hfind⟩ := probeFind_isSome hhome ⟨i₀, hi₀, stopEmpty_true_iff.mpr hk₀⟩
  obtain ⟨jsteps, hjs, hri, hpi, hpre⟩ := probeFind_some hhome hfind
  have hi : i < tbl.length := by rw [hri]; exact Nat.mod_lt _ hcap
  have hikey : keyAt tbl i = KEY_INVALID := stopEmpty_true_iff.mp hpi
  have hlen' : (tbl.set i ⟨k, v⟩).length = tbl.length := List.length_set tbl i _
  have hkeyset : ∀ x, x ≠ i → keyAt (tbl.set i ⟨k, v⟩) x = keyAt tbl x :=
    fun x hx => keyAt_set_ne (fun he => hx he.symm) _
  have hkeyi : keyAt (tbl.set i ⟨k, v⟩) i = k := by
    rw [keyAt_set_self hi]
  have klookup : lookupA m k = none := lookupA_none_of_absent hrep habs
  have hknotin : k ∉ m.map Prod.fst := (lookupA_eq_none_iff m k).mp klookup
  refine ⟨i, hi, hikey, hfind, ?_, ?_, ?_, ?_⟩
  · -- well-formedness of the updated table
    intro j hj hkj
    rw [hlen'] at hj
    by_cases hji : j = i
    · subst hji
      unfold findable
      rw [hlen', hkeyi]
      have hstop : stopIns (tbl.set j ⟨k, v⟩) k ((hashFunc k % tbl.length + jsteps) % tbl.length) = true := by
        rw [← hri]
        exact stopIns_true_iff.mpr (Or.inr hkeyi)
      have hfirst : ∀ j', j' < jsteps →
          stopIns (tbl.set j ⟨k, v⟩) k ((hashFunc k % tbl.length + j') % tbl.length) = false := by
        intro j' hj'
        have hq := stopEmpty_false_iff.mp (hpre j' hj')
        have hqlt : (hashFunc k % tbl.length + j') % tbl.length < tbl.length :=
          Nat.mod_lt _ hcap
        have hqne : (hashFunc k % tbl.length + j') % tbl.length ≠ j := by
          intro he
          rw [he] at hq
          exact hq hikey
        rw [stopIns_false_iff, hkeyset _ hqne]
        exact ⟨hq, habs _ hqlt⟩
      have := probeFind_first hhome hjs hstop hfirst
      rw [this, ← hri]
    · have hkeyj : keyAt (tbl.set i ⟨k, v⟩) j = keyAt tbl j := hkeyset j hji
      have hkj' : keyAt tbl j ≠ KEY_INVALID := by rwa [hkeyj] at hkj
      have hold := hWF j hj hkj'
      unfold findable at hold ⊢
      rw [hlen', hkeyj]
      have hhomej : hashFunc (keyAt tbl j) % tbl.length < tbl.length := Nat.mod_lt _ hcap
      obtain ⟨s, hs, hjr, hstopj, hprej⟩ := probeFind_some hhomej hold
      have hstop' : stopIns (tbl.set i ⟨k, v⟩) (keyAt tbl j)
          ((hashFunc (keyAt tbl j) % tbl.length + s) % tbl.length) = true := by
        rw [← hjr]
        exact stopIns_true_iff.mpr (Or.inr hkeyj)
      have hfirst' : ∀ s', s' < s →
          stopIns (tbl.set i ⟨k, v⟩) (keyAt tbl j)
            ((hashFunc (keyAt tbl j) % tbl.length + s') % tbl.length) = false := by
        intro s' hs'
        have hq := stopIns_false_iff.mp (hprej s' hs')
        have hqne : (hashFunc (keyAt tbl j) % tbl.length + s') % tbl.length ≠ i := by
          intro he
          rw [he] at hq
          exact hq.1 hikey
        rw [stopIns_false_iff, hkeyset _ hqne]
        exact hq
      have := probeFind_first hhomej hs hstop' hfirst'
      rw [this, ← hjr]
  · -- representation
    refine ⟨nodup_keysA_updA k v hrep.1, ?_, ?_, ?_⟩
    · intro p hp
      obtain ⟨k', v'⟩ := p
      rcases (mem_updA hrep.1).mp hp with ⟨h1, _⟩ | ⟨h1, _⟩
      · show k' ≠ KEY_INVALID
        rw [h1]; exact hk
      · exact hrep.2.1 _ h1
    · intro p hp
      obtain ⟨k', v'⟩ := p
      rcases (mem_entries_set_fresh hi hikey hk).mp hp with h | h
      · have h1 : k' = k := congrArg Prod.fst h
        have h2 : v' = v := congrArg Prod.snd h
        exact (mem_updA hrep.1).mpr (Or.inl ⟨h1, h2⟩)
      · have hm : (k', v') ∈ m := (mem_iff_of_represents hrep).mpr h
        refine (mem_updA hrep.1).mpr (Or.inr ⟨hm, ?_⟩)
        intro he
        apply hknotin
        rw [← he]
        exact List.mem_map_of_mem Prod.fst hm
    · intro p hp
      obtain ⟨k', v'⟩ := p
      rcases (mem_updA hrep.1).mp hp with ⟨h1, h2⟩ | ⟨h1, _⟩
      · subst h1; subst h2
        exact (mem_entries_set_fresh hi hikey hk).mpr (Or.inl rfl)
      · exact (mem_entries_set_fresh hi hikey hk).mpr
          (Or.inr ((mem_iff_of_represents hrep).mp h1))
  · rw [countLive_set hi (show (⟨k, v⟩ : TableEntry).key ≠ KEY_INVALID from hk), if_pos hikey, hCL]
  · rw [length_updA, if_pos klookup]

/-- Overwriting the value of the slot that already holds `k` (the update-in-
place branch of `kernelInsert`) preserves well-formedness and refines
`updA`. -/
theorem update_slot_spec {tbl : List TableEntry} {m : List (Nat × Nat)} {k : Nat} (v : Nat) {j₀ : Nat}
    (hWF : WF tbl) (hrep : Represents tbl m) (hCL : countLive tbl = m.length)
    (hk : k ≠ KEY_INVALID) (hj₀ : j₀ < tbl.length) (hkey : keyAt tbl j₀ = k) :
    probeFind (stopIns tbl k) tbl.length tbl.length (hashFunc k % tbl.length) = some j₀ ∧
    WF (tbl.set j₀ ⟨k, v⟩) ∧ Represents (tbl.set j₀ ⟨k, v⟩) (updA m k v) ∧
    countLive (tbl.set j₀ ⟨k, v⟩) = m.length ∧ (updA m k v).length = m.length := by
  have hkj₀ : keyAt tbl j₀ ≠ KEY_INVALID := by rw [hkey]; exact hk
  have hfind : probeFind (stopIns tbl k) tbl.length tbl.length
      (hashFunc k % tbl.length) = some j₀ := by
    have := hWF j₀ hj₀ hkj₀
    unfold findable at this
    rwa [hkey] at this
  have hlen' : (tbl.set j₀ ⟨k, v⟩).length = tbl.length := List.length_set tbl j₀ _
  have hkeys : ∀ x, keyAt (tbl.set j₀ ⟨k, v⟩) x = keyAt tbl x := by
    intro x
    by_cases hx : j₀ = x
    · subst hx
      rw [keyAt_set_self hj₀, hkey]
    · rw [keyAt_set_ne hx]
  have hmem : (k, (entryAt tbl j₀).value) ∈ m := by
    refine (mem_iff_of_represents hrep).mpr (mem_entries.mpr ⟨j₀, hj₀, ?_, hk⟩)
    rw [← hkey]
    rfl
  have hlook : lookupA m k ≠ none := by
    intro hno
    exact (lookupA_eq_none_iff m k).mp hno
      (by simpa using List.mem_map_of_mem Prod.fst hmem)
  refine ⟨hfind, WF_congr_keys hlen' hkeys hWF, ?_, ?_, ?_⟩
  · refine ⟨nodup_keysA_updA k v hrep.1, ?_, ?_, ?_⟩
    · intro p hp
      obtain ⟨k', v'⟩ := p
      rcases (mem_updA hrep.1).mp hp with ⟨h1, _⟩ | ⟨h1, _⟩
      · show k' ≠ KEY_INVALID
        rw [h1]; exact hk
      · exact hrep.2.1 _ h1
    · intro p hp
      obtain ⟨k', v'⟩ := p
      rcases (mem_entries_set_update hWF hj₀ hkey hk).mp hp with h | ⟨h, hne⟩
      · have h1 : k' = k := congrArg Prod.fst h
        have h2 : v' = v := congrArg Prod.snd h
        exact (mem_updA hrep.1).mpr (Or.inl ⟨h1, h2⟩)
      · exact (mem_updA hrep.1).mpr (Or.inr ⟨(mem_iff_of_represents hrep).mpr h, hne⟩)
    · intro p hp
      obtain ⟨k', v'⟩ := p
      rcases (mem_updA hrep.1).mp hp with ⟨h1, h2⟩ | ⟨h1, h2⟩
      · subst h1; subst h2
        exact (mem_entries_set_update hWF hj₀ hkey hk).mpr (Or.inl rfl)
      · exact (mem_entries_set_update hWF hj₀ hkey hk).mpr
          (Or.inr ⟨(mem_iff_of_represents hrep).mp h1, h2⟩)
  · rw [countLive_set hj₀ (show (⟨k, v⟩ : TableEntry).key ≠ KEY_INVALID from hk),
      if_neg hkj₀, hCL]
  · rw [length_updA, if_neg hlook]

/-- Running one `kernelInsert` worker for a key already present at slot `j₀`:
the loop ends at `j₀`, counts an update, and the table/model refinement is
preserved. -/
theorem insertLoop_run_update {tbl : List TableEntry} {m : List (Nat × Nat)}
    {k : Nat} (v : Nat) {j₀ : Nat} (hWF : WF tbl) (hrep : Represents tbl m)
    (hCL : countLive tbl = m.length) (hk : k ≠ KEY_INVALID)
    (hj₀ : j₀ < tbl.length) (hkey : keyAt tbl j₀ = k) :
    insertLoop tbl tbl.length k v tbl.length (hashFunc k % tbl.length) =
      (tbl.set j₀ ⟨k, v⟩, true) := by
  rw [insertLoop_eq, (update_slot_spec v hWF hrep hCL hk hj₀ hkey).1]
  have hbeq : (keyAt tbl j₀ == k) = true := beq_iff_eq.mpr hkey
  simp [hbeq]

/-- Running one `kernelInsert` worker for an absent key: the loop claims the
first empty slot on the probe path, counts no update, and the table/model
refinement is preserved with one more live slot. -/
theorem insertLoop_run_absent {tbl : List TableEntry} {m : List (Nat × Nat)}
    {k : Nat} (v : Nat) (hWF : WF tbl) (hrep : Represents tbl m)
    (hCL : countLive tbl = m.length) (hk : k ≠ KEY_INVALID)
    (habs : ∀ j, j < tbl.length → keyAt tbl j ≠ k) (hroom : m.length < tbl.length) :
    ∃ i, i < tbl.length ∧ keyAt tbl i = KEY_INVALID ∧
      insertLoop tbl tbl.length k v tbl.length (hashFunc k % tbl.length) =
        (tbl.set i ⟨k, v⟩, false) ∧
      WF (tbl.set i ⟨k, v⟩) ∧ Represents (tbl.set i ⟨k, v⟩) (updA m k v) ∧
      countLive (tbl.set i ⟨k, v⟩) = m.length + 1 ∧
      (updA m k v).length = m.length + 1 := by
  have hcap : 0 < tbl.length := by omega
  have hhome : hashFunc k % tbl.length < tbl.length := Nat.mod_lt _ hcap
  obtain ⟨i, hi, hikey, hfind, hWF', hrep', hCL', hlen'⟩ :=
    fresh_slot_spec v hWF hrep hCL hk habs hroom
  have hcongr : ∀ x, x < tbl.length → stopIns tbl k x = stopEmpty tbl x := by
    intro x hx
    rw [stopIns, stopEmpty]
    have : (keyAt tbl x == k) = false := beq_eq_false_iff_ne.mpr (habs x hx)
    rw [this, Bool.or_false]
  refine ⟨i, hi, hikey, ?_, hWF', hrep', hCL', hlen'⟩
  rw [insertLoop_eq, probeFind_congr hcongr hhome, hfind]
  have hbeq : (keyAt tbl i == k) = false :=
    beq_eq_false_iff_ne.mpr (by rw [hikey]; exact fun he => hk he.symm)
  simp [hbeq]

/-- Running one `kernelReshape` worker for a key absent from the new table:
identical effect to a fresh insert. -/
theorem reshapeLoop_run {tbl : List TableEntry} {m : List (Nat × Nat)}
    {k : Nat} (v : Nat) (hWF : WF tbl) (hrep : Represents tbl m)
    (hCL : countLive tbl = m.length) (hk : k ≠ KEY_INVALID)
    (habs : ∀ j, j < tbl.length → keyAt tbl j ≠ k) (hroom : m.length < tbl.length) :
    ∃ i, i < tbl.length ∧ keyAt tbl i = KEY_INVALID ∧
      reshapeLoop tbl tbl.length k v tbl.length (hashFunc k % tbl.length) =
        tbl.set i ⟨k, v⟩ ∧
      WF (tbl.set i ⟨k, v⟩) ∧ Represents (tbl.set i ⟨k, v⟩) (updA m k v) ∧
      countLive (tbl.set i ⟨k, v⟩) = m.length + 1 ∧
      (updA m k v).length = m.length + 1 := by
  obtain ⟨i, hi, hikey, hfind, hWF', hrep', hCL', hlen'⟩ :=
    fresh_slot_spec v hWF hrep hCL hk habs hroom
  refine ⟨i, hi, hikey, ?_, hWF', hrep', hCL', hlen'⟩
  rw [reshapeLoop_eq, hfind]

theorem batchUpd_nil (m : List (Nat × Nat)) (values : List Nat) :
    batchUpd m [] values = m := rfl

theorem batchUpd_cons (m : List (Nat × Nat)) (k v : Nat) (ks vs : List Nat) :
    batchUpd m (k :: ks) (v :: vs) = batchUpd (updA m k v) ks vs := rfl

/-- The whole `kernelInsert` launch refines a fold of `updA` over the batch,
preserves well-formedness and the live count, never changes the array length,
and its update counter satisfies the exact accounting
`m.length + n = (batchUpd m keys values).length + updates`. -/
theorem kernelInsert_spec :
    ∀ (keys values : List Nat) (tbl : List TableEntry) (m : List (Nat × Nat)),
      values.length = keys.length → WF tbl → Represents tbl m →
      countLive tbl = m.length → (∀ k ∈ keys, k ≠ KEY_INVALID) →
      m.length + keys.length ≤ tbl.length →
      WF (kernelInsert tbl.length tbl keys values).1 ∧
      Represents (kernelInsert tbl.length tbl keys values).1 (batchUpd m keys values) ∧
      countLive (kernelInsert tbl.length tbl keys values).1 =
        (batchUpd m keys values).length ∧
      (kernelInsert tbl.length tbl keys values).1.length = tbl.length ∧
      m.length + keys.length =
        (batchUpd m keys values).length + (kernelInsert tbl.length tbl keys values).2 := by
  intro keys
  induction keys with
  | nil =>
    intro values tbl m _ hWF hrep hCL _ _
    have hker : kernelInsert tbl.length tbl [] values = (tbl, 0) := by
      simp [kernelInsert]
    rw [hker, batchUpd_nil]
    exact ⟨hWF, hrep, hCL, rfl, by simp⟩
  | cons k ks ih =>
    intro values tbl m hlen hWF hrep hCL hkeys hroom
    cases values with
    | nil => exact absurd hlen (by simp)
    | cons v vs =>
      have hlen' : vs.length = ks.length := by simpa using hlen
      have hk : k ≠ KEY_INVALID := hkeys k (List.mem_cons_self _ _)
      have hkeys' : ∀ k' ∈ ks, k' ≠ KEY_INVALID :=
        fun k' hk' => hkeys k' (List.mem_cons_of_mem _ hk')
      by_cases hpres : ∃ j₀, j₀ < tbl.length ∧ keyAt tbl j₀ = k
      · obtain ⟨j₀, hj₀, hkeyj⟩ := hpres
        have hrun := insertLoop_run_update v hWF hrep hCL hk hj₀ hkeyj
        obtain ⟨hWF1, hrep1, hCL1, hlup⟩ :=
          (update_slot_spec v hWF hrep hCL hk hj₀ hkeyj).2
        have hlen1 : (tbl.set j₀ ⟨k, v⟩).length = tbl.length := List.length_set tbl j₀ _
        have hih := ih vs (tbl.set j₀ ⟨k, v⟩) (updA m k v)
          (by rw [hlen']) hWF1 hrep1 (by rw [hCL1, hlup]) hkeys'
          (by rw [hlup, hlen1]; simp at hroom; omega)
        rw [hlen1] at hih
        have hker : kernelInsert tbl.length tbl (k :: ks) (v :: vs) =
            ((kernelInsert tbl.length (tbl.set j₀ ⟨k, v⟩) ks vs).1,
              1 + (kernelInsert tbl.length (tbl.set j₀ ⟨k, v⟩) ks vs).2) := by
          simp [kernelInsert, hrun]
        rw [hker, batchUpd_cons]
        refine ⟨hih.1, hih.2.1, hih.2.2.1, hih.2.2.2.1, ?_⟩
        have hacc := hih.2.2.2.2
        rw [hlup] at hacc
        simp only [List.length_cons]
        omega
      · push_neg at hpres
        have hroomm : m.length < tbl.length := by simp at hroom; omega
        obtain ⟨i, hi, hikey, hrun, hWF1, hrep1, hCL1, hlup⟩ :=
          insertLoop_run_absent v hWF hrep hCL hk hpres hroomm
        have hlen1 : (tbl.set i ⟨k, v⟩).length = tbl.length := List.length_set tbl i _
        have hih := ih vs (tbl.set i ⟨k, v⟩) (updA m k v)
          (by rw [hlen']) hWF1 hrep1 (by rw [hCL1, hlup]) hkeys'
          (by rw [hlup, hlen1]; simp at hroom; omega)
        rw [hlen1] at hih
        have hker : kernelInsert tbl.length tbl (k :: ks) (v :: vs) =
            ((kernelInsert tbl.length (tbl.set i ⟨k, v⟩) ks vs).1,
              (kernelInsert tbl.length (tbl.set i ⟨k, v⟩) ks vs).2) := by
          simp [kernelInsert, hrun]
        rw [hker, batchUpd_cons]
        refine ⟨hih.1, hih.2.1, hih.2.2.1, hih.2.2.2.1, ?_⟩
        have hacc := hih.2.2.2.2
        rw [hlup] at hacc
        simp only [List.length_cons]
        omega

/-! ### Facts about the freshly memset table and stored-key distinctness -/
theorem WF_replicate (n : Nat) :
    WF (List.replicate n ⟨KEY_INVALID, KEY_INVALID⟩) := by
  intro i _ hki
  exact absurd (keyAt_replicate_invalid n i) hki

theorem entries_replicate (n : Nat) :
    entries (List.replicate n ⟨KEY_INVALID, KEY_INVALID⟩) = [] := by
  induction n with
  | zero => rfl
  | succ n ih => rw [List.replicate_succ, entries, if_pos rfl, ih]

theorem countLive_replicate (n : Nat) :
    countLive (List.replicate n ⟨KEY_INVALID, KEY_INVALID⟩) = 0 := by
  induction n with
  | zero => rfl
  | succ n ih => rw [List.replicate_succ, countLive, if_pos rfl, ih]

theorem Represents_replicate (n : Nat) :
    Represents (List.replicate n ⟨KEY_INVALID, KEY_INVALID⟩) [] := by
  refine ⟨List.nodup_nil, by simp, ?_, by simp⟩
  rw [entries_replicate]
  simp

theorem entries_nodup_aux :
    ∀ tbl : List TableEntry,
      (∀ i j, i < tbl.length → j < tbl.length → keyAt tbl i ≠ KEY_INVALID →
        keyAt tbl i = keyAt tbl j → i = j) →
      ((entries tbl).map Prod.fst).Nodup := by
  intro tbl
  induction tbl with
  | nil => intro _; simp [entries]
  | cons e rest ih =>
    intro h
    have hrest : ∀ i j, i < rest.length → j < rest.length →
        keyAt rest i ≠ KEY_INVALID → keyAt rest i = keyAt rest j → i = j := by
      intro i j hi hj hki heq
      have := h (i + 1) (j + 1) (by simpa using hi) (by simpa using hj)
        (by rwa [keyAt_cons_succ]) (by rwa [keyAt_cons_succ, keyAt_cons_succ])
      omega
    by_cases he : e.key = KEY_INVALID
    · rw [entries, if_pos he]
      exact ih hrest
    · rw [entries, if_neg he]
      simp only [List.map_cons, List.nodup_cons]
      refine ⟨?_, ih hrest⟩
      intro hmem
      obtain ⟨p, hp, hpk⟩ := List.mem_map.mp hmem
      obtain ⟨k', v'⟩ := p
      obtain ⟨i, hi, hent, hki⟩ := mem_entries.mp hp
      have hk' : k' = e.key := hpk
      have hkr : keyAt rest i = k' := by rw [keyAt, hent]
      have := h 0 (i + 1) (by simp) (by simpa using hi)
        (by rw [keyAt_cons_zero]; exact he)
        (by rw [keyAt_cons_zero, keyAt_cons_succ, hkr, hk'])
      omega

/-- In a well-formed table distinct live slots hold distinct keys, so the
stored key list has no duplicates. -/
theorem entries_keys_nodup {tbl : List TableEntry} (hWF : WF tbl) :
    ((entries tbl).map Prod.fst).Nodup :=
  entries_nodup_aux tbl (fun _ _ hi hj hki heq => live_key_unique hWF hi hj hki heq)

theorem updA_eq_append {m : List (Nat × Nat)} {k : Nat} (v : Nat)
    (h : k ∉ m.map Prod.fst) : updA m k v = m ++ [(k, v)] := by
  induction m with
  | nil => rfl
  | cons p rest ih =>
    simp only [List.map_cons, List.mem_cons] at h
    push_neg at h
    rw [updA, if_neg (fun he => h.1 he.symm), ih h.2, List.cons_append]

/-- The `kernelReshape` worker fold: re-inserting a list of old slots (whose
live keys are distinct and disjoint from the accumulator's) extends the
accumulator's model by exactly the old live entries. -/
theorem kernelReshape_fold :
    ∀ (old acc : List TableEntry) (macc : List (Nat × Nat)) (cap : Nat),
      acc.length = cap → WF acc → Represents acc macc →
      countLive acc = macc.length → macc.length + countLive old ≤ cap →
      (macc.map Prod.fst ++ (entries old).map Prod.fst).Nodup →
      WF (old.foldl (fun a e => if e.key == KEY_INVALID then a
          else reshapeLoop a cap e.key e.value cap (hashFunc e.key % cap)) acc) ∧
      Represents (old.foldl (fun a e => if e.key == KEY_INVALID then a
          else reshapeLoop a cap e.key e.value cap (hashFunc e.key % cap)) acc)
        (macc ++ entries old) ∧
      countLive (old.foldl (fun a e => if e.key == KEY_INVALID then a
          else reshapeLoop a cap e.key e.value cap (hashFunc e.key % cap)) acc) =
        (macc ++ entries old).length ∧
      (old.foldl (fun a e => if e.key == KEY_INVALID then a
          else reshapeLoop a cap e.key e.value cap (hashFunc e.key % cap)) acc).length
        = cap := by
  intro old
  induction old with
  | nil =>
    intro acc macc cap hlen hWF hrep hCL _ _
    rw [List.foldl_nil, entries, List.append_nil]
    exact ⟨hWF, hrep, hCL, hlen⟩
  | cons e rest ih =>
    intro acc macc cap hlen hWF hrep hCL hroom hnd
    rw [List.foldl_cons]
    by_cases he : e.key = KEY_INVALID
    · rw [if_pos (beq_iff_eq.mpr he)]
      have hce : entries (e :: rest) = entries rest := by rw [entries, if_pos he]
      have hcl : countLive (e :: rest) = countLive rest := by
        rw [countLive, if_pos he]; omega
      rw [hce]
      rw [hce] at hnd
      rw [hcl] at hroom
      exact ih acc macc cap hlen hWF hrep hCL hroom hnd
    · rw [if_neg (show ¬ ((e.key == KEY_INVALID) = true) by simp [he])]
      have hce : entries (e :: rest) = (e.key, e.value) :: entries rest := by
        rw [entries, if_neg he]
      have hcl : countLive (e :: rest) = 1 + countLive rest := by
        rw [countLive, if_neg he]
      rw [hce] at hnd ⊢
      rw [hcl] at hroom
      rw [List.map_cons, List.append_cons] at hnd
      have hnd' := hnd
      rw [List.nodup_append] at hnd'
      have hkey_notin : e.key ∉ macc.map Prod.fst := by
        intro hmem
        have h1 : e.key ∈ macc.map Prod.fst ++ [e.key] := by
          simp
        have h2 : (macc.map Prod.fst ++ [e.key]).Nodup := hnd'.1
        rw [List.nodup_append] at h2
        exact h2.2.2 hmem (by simp)
      have habs : ∀ j, j < acc.length → keyAt acc j ≠ e.key := by
        intro j hj hkeyj
        apply hkey_notin
        have hment : (e.key, (entryAt acc j).value) ∈ entries acc := by
          refine mem_entries.mpr ⟨j, hj, ?_, he⟩
          rw [← hkeyj]
          rfl
        have hm : (e.key, (entryAt acc j).value) ∈ macc :=
          (mem_iff_of_represents hrep).mpr hment
        simpa using List.mem_map_of_mem Prod.fst hm
      have hroomm : macc.length < acc.length := by omega
      obtain ⟨i, hi, hikey, hrun, hWF1, hrep1, hCL1, hlup⟩ :=
        reshapeLoop_run e.value hWF hrep hCL he habs hroomm
      rw [hlen] at hrun
      rw [hrun]
      have hupd : updA macc e.key e.value = macc ++ [(e.key, e.value)] :=
        updA_eq_append e.value hkey_notin
      rw [hupd] at hrep1 hlup
      have hlen1 : (acc.set i ⟨e.key, e.value⟩).length = cap := by
        rw [List.length_set, hlen]
      have hih := ih (acc.set i ⟨e.key, e.value⟩) (macc ++ [(e.key, e.value)]) cap
        hlen1 hWF1 hrep1 (by rw [hCL1, hlup]) (by rw [hlup]; omega)
        (by simpa using hnd)
      rw [List.append_cons]
      exact hih

/-- A `Represents` target can be swapped for any association list with the
same members, distinct keys, and no sentinel key. -/
theorem Represents_congr_model {tbl : List TableEntry}
    {m' m : List (Nat × Nat)} (h : Represents tbl m')
    (hmem : ∀ p, p ∈ m' ↔ p ∈ m) (hnd : (m.map Prod.fst).Nodup)
    (hs : ∀ p ∈ m, p.1 ≠ KEY_INVALID) : Represents tbl m := by
  refine ⟨hnd, hs, ?_, ?_⟩
  · intro p hp
    exact (hmem p).mp (h.2.2.1 p hp)
  · intro p hp
    exact h.2.2.2 p ((hmem p).mpr hp)

/-- The full `kernelReshape` launch into a fresh sentinel table of size `c`
rebuilds a table representing the same model, with the same live count. -/
theorem kernelReshape_spec {tbl : List TableEntry} {m : List (Nat × Nat)} {c : Nat}
    (hWF : WF tbl) (hrep : Represents tbl m) (hCL : countLive tbl = m.length)
    (hroom : m.length ≤ c) :
    WF (kernelReshape c tbl (List.replicate c ⟨KEY_INVALID, KEY_INVALID⟩)) ∧
    Represents (kernelReshape c tbl (List.replicate c ⟨KEY_INVALID, KEY_INVALID⟩)) m ∧
    countLive (kernelReshape c tbl (List.replicate c ⟨KEY_INVALID, KEY_INVALID⟩))
      = m.length ∧
    (kernelReshape c tbl (List.replicate c ⟨KEY_INVALID, KEY_INVALID⟩)).length = c := by
  have hfold := kernelReshape_fold tbl (List.replicate c ⟨KEY_INVALID, KEY_INVALID⟩)
    [] c (List.length_replicate c _) (WF_replicate c) (Represents_replicate c)
    (countLive_replicate c)
    (by simp only [List.length_nil, Nat.zero_add, hCL]; exact hroom)
    (by simpa using entries_keys_nodup hWF)
  rw [List.nil_append] at hfold
  have hker : kernelReshape c tbl (List.replicate c ⟨KEY_INVALID, KEY_INVALID⟩) =
      tbl.foldl (fun a e => if e.key == KEY_INVALID then a
        else reshapeLoop a c e.key e.value c (hashFunc e.key % c))
        (List.replicate c ⟨KEY_INVALID, KEY_INVALID⟩) := rfl
  rw [hker]
  have hmm : ∀ p, p ∈ entries tbl ↔ p ∈ m :=
    fun p => ⟨fun hp => hrep.2.2.1 p hp, fun hp => hrep.2.2.2 p hp⟩
  refine ⟨hfold.1, Represents_congr_model hfold.2.1 hmm hrep.1 hrep.2.1, ?_, hfold.2.2.2⟩
  rw [hfold.2.2.1, ← countLive_eq_length_entries, hCL]

/-- `GpuHashTable::reshape` preserves the state invariant whenever the new
capacity can hold all live entries; capacity becomes the requested size and
`used_buckets` is untouched. -/
theorem reshape_spec {t : GpuHashTable} {m : List (Nat × Nat)} {c : Nat}
    (hInv : TableInv t m) (hroom : m.length ≤ c) :
    TableInv (reshape t c) m ∧ capacity (reshape t c) = c ∧
    (reshape t c).used_buckets = t.used_buckets := by
  obtain ⟨hWF, hrep, hCL, hused⟩ := hInv
  obtain ⟨hWF', hrep', hCL', hlen'⟩ := kernelReshape_spec hWF hrep hCL hroom
  exact ⟨⟨hWF', hrep', hCL', hused⟩, hlen', rfl⟩

/-- Assembling the post-kernel state: running `kernelInsert` on any state
satisfying the invariant, with room for the whole batch, yields the invariant
for the batch-updated model (this is `insertBatch` after the resize
decision). -/
theorem insertBatch_after {t1 : GpuHashTable} {m : List (Nat × Nat)}
    {keys values : List Nat} (hInv1 : TableInv t1 m)
    (hlen : values.length = keys.length) (hkeys : ∀ k ∈ keys, k ≠ KEY_INVALID)
    (hroom : m.length + keys.length ≤ capacity t1) :
    TableInv
      { table := (kernelInsert (capacity t1) t1.table keys values).1,
        used_buckets := t1.used_buckets + keys.length -
          (kernelInsert (capacity t1) t1.table keys values).2 }
      (batchUpd m keys values) := by
  obtain ⟨hWF, hrep, hCL, hused⟩ := hInv1
  have hker := kernelInsert_spec keys values t1.table m hlen hWF hrep hCL hkeys hroom
  refine ⟨hker.1, hker.2.1, hker.2.2.1, ?_⟩
  have hacc := hker.2.2.2.2
  show t1.used_buckets + keys.length -
    (kernelInsert (capacity t1) t1.table keys values).2 = (batchUpd m keys values).length
  have hc : capacity t1 = t1.table.length := rfl
  rw [hused, hc]
  omega

/-- `GpuHashTable::insertBatch` preserves the state invariant, taking the
model to the batch fold of `updA` — for any batch of non-sentinel keys with
matching value count.  (An empty batch is a no-op.) -/
theorem insertBatch_spec {t : GpuHashTable} {m : List (Nat × Nat)}
    {keys values : List Nat} (hInv : TableInv t m)
    (hlen : values.length = keys.length) (hkeys : ∀ k ∈ keys, k ≠ KEY_INVALID) :
    TableInv (insertBatch t keys values).1 (batchUpd m keys values) := by
  by_cases hnil : keys.length = 0
  · have hkeq : keys = [] := List.length_eq_zero.mp hnil
    subst hkeq
    rw [batchUpd_nil]
    exact hInv
  · have hused := hInv.2.2.2
    have hn1 : 1 ≤ keys.length := Nat.one_le_iff_ne_zero.mpr hnil
    by_cases hg : loadFactorGtMax (t.used_buckets + keys.length) (capacity t)
    · have htwo := le_two_mul_rnd24 (t.used_buckets + keys.length)
      have hroom2 : m.length ≤ 2 * rnd24 (t.used_buckets + keys.length) := by omega
      obtain ⟨hInv1, hcap1, _⟩ :=
        reshape_spec hInv hroom2
      have hroom : m.length + keys.length ≤
          capacity (reshape t (2 * rnd24 (t.used_buckets + keys.length))) := by
        rw [hcap1]; omega
      have hib : (insertBatch t keys values).1 =
          { table := (kernelInsert
              (capacity (reshape t (2 * rnd24 (t.used_buckets + keys.length))))
              (reshape t (2 * rnd24 (t.used_buckets + keys.length))).table keys values).1,
            used_buckets :=
              (reshape t (2 * rnd24 (t.used_buckets + keys.length))).used_buckets
                + keys.length -
              (kernelInsert
                (capacity (reshape t (2 * rnd24 (t.used_buckets + keys.length))))
                (reshape t (2 * rnd24 (t.used_buckets + keys.length))).table keys values).2 } := by
        simp only [insertBatch, if_neg hnil, if_pos hg]
      rw [hib]
      exact insertBatch_after hInv1 hlen hkeys hroom
    · have hfit := loadFactorGtMax_false_le hg
      have hroom : m.length + keys.length ≤ capacity t := by omega
      have hib : (insertBatch t keys values).1 =
          { table := (kernelInsert (capacity t) t.table keys values).1,
            used_buckets := t.used_buckets + keys.length -
              (kernelInsert (capacity t) t.table keys values).2 } := by
        simp only [insertBatch, if_neg hnil, if_neg hg]
      rw [hib]
      exact insertBatch_after hInv hlen hkeys hroom

/-! ### Length, counter, and branch-shape facts -/
theorem insertLoop_length (tbl : List TableEntry) (cap k v fuel idx : Nat) :
    (insertLoop tbl cap k v fuel idx).1.length = tbl.length := by
  rw [insertLoop_eq]
  cases probeFind (stopIns tbl k) cap fuel idx with
  | none => rfl
  | some i => exact List.length_set tbl i _

theorem kernelInsert_length :
    ∀ (keys values : List Nat) (tbl : List TableEntry) (cap : Nat),
      (kernelInsert cap tbl keys values).1.length = tbl.length := by
  intro keys
  induction keys with
  | nil => intro values tbl cap; simp [kernelInsert]
  | cons k ks ih =>
    intro values tbl cap
    cases values with
    | nil => simp [kernelInsert]
    | cons v vs =>
      have hker : (kernelInsert cap tbl (k :: ks) (v :: vs)).1 =
          (kernelInsert cap (insertLoop tbl cap k v cap (hashFunc k % cap)).1 ks vs).1 := by
        simp [kernelInsert]
      rw [hker, ih, insertLoop_length]

theorem kernelInsert_updates_le :
    ∀ (keys values : List Nat) (tbl : List TableEntry) (cap : Nat),
      (kernelInsert cap tbl keys values).2 ≤ keys.length := by
  intro keys
  induction keys with
  | nil => intro values tbl cap; simp [kernelInsert]
  | cons k ks ih =>
    intro values tbl cap
    cases values with
    | nil => simp [kernelInsert]
    | cons v vs =>
      have hker : (kernelInsert cap tbl (k :: ks) (v :: vs)).2 =
          (if (insertLoop tbl cap k v cap (hashFunc k % cap)).2 then 1 else 0) +
          (kernelInsert cap (insertLoop tbl cap k v cap (hashFunc k % cap)).1 ks vs).2 := by
        simp [kernelInsert]
      rw [hker]
      have hle := ih vs (insertLoop tbl cap k v cap (hashFunc k % cap)).1 cap
      by_cases hb : (insertLoop tbl cap k v cap (hashFunc k % cap)).2
      · rw [if_pos hb]
        simp only [List.length_cons]
        omega
      · rw [if_neg hb]
        simp only [List.length_cons]
        omega

theorem reshapeLoop_length (tbl : List TableEntry) (cap k v fuel idx : Nat) :
    (reshapeLoop tbl cap k v fuel idx).length = tbl.length := by
  rw [reshapeLoop_eq]
  cases probeFind (stopEmpty tbl) cap fuel idx with
  | none => rfl
  | some i => exact List.length_set tbl i _

theorem kernelReshape_length :
    ∀ (old newtbl : List TableEntry) (c : Nat),
      (kernelReshape c old newtbl).length = newtbl.length := by
  intro old
  induction old with
  | nil => intro newtbl c; rfl
  | cons e rest ih =>
    intro newtbl c
    show (List.foldl _ (if e.key == KEY_INVALID then newtbl
      else reshapeLoop newtbl c e.key e.value c (hashFunc e.key % c)) rest).length
      = newtbl.length
    by_cases he : e.key == KEY_INVALID
    · rw [if_pos he]
      exact ih newtbl c
    · rw [if_neg he]
      rw [show (List.foldl _ (reshapeLoop newtbl c e.key e.value c (hashFunc e.key % c)) rest) = kernelReshape c rest (reshapeLoop newtbl c e.key e.value c (hashFunc e.key % c)) from rfl]
      rw [ih, reshapeLoop_length]

/-- Reshaping always installs exactly the requested capacity. -/
theorem capacity_reshape (t : GpuHashTable) (c : Nat) :
    capacity (reshape t c) = c := by
  show (kernelReshape c t.table (List.replicate c ⟨KEY_INVALID, KEY_INVALID⟩)).length = c
  rw [kernelReshape_length, List.length_replicate]

theorem insertBatch_eq_pos (t : GpuHashTable) (keys values : List Nat)
    (hnil : ¬ keys.length = 0)
    (hg : loadFactorGtMax (t.used_buckets + keys.length) (capacity t)) :
    insertBatch t keys values =
      ({ table := (kernelInsert
            (capacity (reshape t (2 * rnd24 (t.used_buckets + keys.length))))
            (reshape t (2 * rnd24 (t.used_buckets + keys.length))).table keys values).1,
         used_buckets :=
            (reshape t (2 * rnd24 (t.used_buckets + keys.length))).used_buckets
              + keys.length -
            (kernelInsert
              (capacity (reshape t (2 * rnd24 (t.used_buckets + keys.length))))
              (reshape t (2 * rnd24 (t.used_buckets + keys.length))).table keys values).2 },
       true) := by
  simp only [insertBatch, if_neg hnil, if_pos hg]

theorem insertBatch_eq_neg (t : GpuHashTable) (keys values : List Nat)
    (hnil : ¬ keys.length = 0)
    (hg : ¬ loadFactorGtMax (t.used_buckets + keys.length) (capacity t)) :
    insertBatch t keys values =
      ({ table := (kernelInsert (capacity t) t.table keys values).1,
         used_buckets := t.used_buckets + keys.length -
            (kernelInsert (capacity t) t.table keys values).2 },
       true) := by
  simp only [insertBatch, if_neg hnil, if_neg hg]

/-- `insertBatch` always accounts `used += n - updates` with `updates ≤ n`. -/
theorem insertBatch_used_formula (t : GpuHashTable) (keys values : List Nat) :
    ∃ u, u ≤ keys.length ∧
      (insertBatch t keys values).1.used_buckets =
        t.used_buckets + keys.length - u := by
  by_cases hnil : keys.length = 0
  · refine ⟨0, Nat.zero_le _, ?_⟩
    have : insertBatch t keys values = (t, false) := by
      simp only [insertBatch, if_pos hnil]
    rw [this]
    show t.used_buckets = t.used_buckets + keys.length - 0
    omega
  · by_cases hg : loadFactorGtMax (t.used_buckets + keys.length) (capacity t)
    · rw [insertBatch_eq_pos t keys values hnil hg]
      exact ⟨_, kernelInsert_updates_le keys values _ _, rfl⟩
    · rw [insertBatch_eq_neg t keys values hnil hg]
      exact ⟨_, kernelInsert_updates_le keys values _ _, rfl⟩

/-! ### Lookup correctness -/
/-- A `kernelGet` worker whose key is stored at some slot finds it (its
findable slot), within `capacity` probes. -/
theorem getLoop_found {tbl : List TableEntry} (hWF : WF tbl) {j k : Nat}
    (hj : j < tbl.length) (hkey : keyAt tbl j = k) (hk : k ≠ KEY_INVALID) :
    getLoop tbl tbl.length k tbl.length (hashFunc k % tbl.length) =
      some (entryAt tbl j).value := by
  have hkj : keyAt tbl j ≠ KEY_INVALID := by rw [hkey]; exact hk
  have hfind := hWF j hj hkj
  unfold findable at hfind
  rw [hkey] at hfind
  have hcap : 0 < tbl.length := by omega
  have hhome : hashFunc k % tbl.length < tbl.length := Nat.mod_lt _ hcap
  obtain ⟨s, hs, hjr, hstop, hpre⟩ := probeFind_some hhome hfind
  have hstopg : stopGet tbl k ((hashFunc k % tbl.length + s) % tbl.length) = true := by
    rw [← hjr, stopGet_true_iff, hkey]
  have hpreg : ∀ s', s' < s →
      stopGet tbl k ((hashFunc k % tbl.length + s') % tbl.length) = false := by
    intro s' hs'
    have hni := stopIns_false_iff.mp (hpre s' hs')
    rw [stopGet_false_iff]
    exact fun he => hni.2 he.symm
  have hfg := probeFind_first hhome hs hstopg hpreg
  rw [getLoop_eq, hfg, ← hjr]

/-- Under the invariant, a key bound to `v` in the model is returned as `v`
by one lookup worker with fuel `capacity`. -/
theorem getBatch_hit {t : GpuHashTable} {m : List (Nat × Nat)}
    (hInv : TableInv t m) {k v : Nat} (hl : lookupA m k = some v) :
    kernelGetThread t.table (capacity t) k (capacity t) = some v := by
  obtain ⟨j, hj, hent, hk⟩ := present_of_lookupA_some hInv.2.1 hl
  have hkey : keyAt t.table j = k := by rw [keyAt, hent]
  have hval : (entryAt t.table j).value = v := by rw [hent]
  show getLoop t.table (capacity t) k (capacity t) (hashFunc k % capacity t) = some v
  rw [show capacity t = t.table.length from rfl, getLoop_found hInv.1 hj hkey hk, hval]

/-- A freshly constructed table satisfies the invariant with the empty
model. -/
theorem init_inv (size : Nat) : TableInv (GpuHashTable.init size) [] :=
  ⟨WF_replicate size, Represents_replicate size, countLive_replicate size, rfl⟩

/-- The invariant is preserved along any sequence of well-formed insert
batches. -/
theorem runInserts_inv :
    ∀ (bs : List (List Nat × List Nat)) (t : GpuHashTable) (m : List (Nat × Nat)),
      TableInv t m →
      (∀ b ∈ bs, b.2.length = b.1.length ∧ ∀ k ∈ b.1, k ≠ KEY_INVALID) →
      TableInv (runInserts t bs) (runModel m bs) := by
  intro bs
  induction bs with
  | nil => intro t m hInv _; exact hInv
  | cons b rest ih =>
    intro t m hInv hgood
    have hb := hgood b (List.mem_cons_self _ _)
    exact ih _ _ (insertBatch_spec hInv hb.1 hb.2)
      (fun b' hb' => hgood b' (List.mem_cons_of_mem _ hb'))

/-! ### The frame property of `kernelInsert` -/
theorem insertLoop_frame {tbl : List TableEntry} {cap k v fuel idx j : Nat}
    (hidx : idx < cap) (hjlive : keyAt tbl j ≠ KEY_INVALID)
    (hjk : keyAt tbl j ≠ k) :
    entryAt (insertLoop tbl cap k v fuel idx).1 j = entryAt tbl j := by
  rw [insertLoop_eq]
  cases hfind : probeFind (stopIns tbl k) cap fuel idx with
  | none => rfl
  | some i =>
    obtain ⟨_, _, _, hstop, _⟩ := probeFind_some hidx hfind
    have hij : i ≠ j := by
      intro he
      rcases stopIns_true_iff.mp hstop with h | h
      · rw [he] at h; exact hjlive h
      · rw [he] at h; exact hjk h
    exact entryAt_set_ne hij _

theorem kernelInsert_frame :
    ∀ (keys values : List Nat) (tbl : List TableEntry) (cap : Nat), 0 < cap →
      ∀ j, keyAt tbl j ≠ KEY_INVALID → keyAt tbl j ∉ keys →
      entryAt (kernelInsert cap tbl keys values).1 j = entryAt tbl j := by
  intro keys
  induction keys with
  | nil => intro values tbl cap _ j _ _; simp [kernelInsert]
  | cons k ks ih =>
    intro values tbl cap hcap j hjlive hjnot
    cases values with
    | nil => simp [kernelInsert]
    | cons v vs =>
      have hker : (kernelInsert cap tbl (k :: ks) (v :: vs)).1 =
          (kernelInsert cap (insertLoop tbl cap k v cap (hashFunc k % cap)).1 ks vs).1 := by
        simp [kernelInsert]
      rw [hker]
      have hjk : keyAt tbl j ≠ k :=
        fun he => hjnot (he ▸ List.mem_cons_self _ _)
      have hframe : entryAt (insertLoop tbl cap k v cap (hashFunc k % cap)).1 j
          = entryAt tbl j :=
        insertLoop_frame (Nat.mod_lt _ hcap) hjlive hjk
      have hkey : keyAt (insertLoop tbl cap k v cap (hashFunc k % cap)).1 j
          = keyAt tbl j := by
        rw [keyAt, hframe, keyAt]
      rw [ih vs _ cap hcap j (by rw [hkey]; exact hjlive)
        (by rw [hkey]; exact fun hm => hjnot (List.mem_cons_of_mem _ hm)), hframe]

theorem insertBatch_used_pos (t : GpuHashTable) (keys values : List Nat)
    (hnil : ¬ keys.length = 0)
    (hg : loadFactorGtMax (t.used_buckets + keys.length) (capacity t)) :
    (insertBatch t keys values).1.used_buckets =
      t.used_buckets + keys.length -
        (kernelInsert (capacity (reshape t (2 * rnd24 (t.used_buckets + keys.length))))
          (reshape t (2 * rnd24 (t.used_buckets + keys.length))).table keys values).2 := by
  rw [insertBatch_eq_pos t keys values hnil hg]
  rfl

theorem insertBatch_capacity_pos (t : GpuHashTable) (keys values : List Nat)
    (hnil : ¬ keys.length = 0)
    (hg : loadFactorGtMax (t.used_buckets + keys.length) (capacity t)) :
    capacity (insertBatch t keys values).1 =
      2 * rnd24 (t.used_buckets + keys.length) := by
  rw [insertBatch_eq_pos t keys values hnil hg]
  show (kernelInsert (capacity (reshape t (2 * rnd24 (t.used_buckets + keys.length))))
    (reshape t (2 * rnd24 (t.used_buckets + keys.length))).table keys values).1.length = _
  rw [kernelInsert_length]
  exact capacity_reshape t _

theorem insertBatch_used_neg (t : GpuHashTable) (keys values : List Nat)
    (hnil : ¬ keys.length = 0)
    (hg : ¬ loadFactorGtMax (t.used_buckets + keys.length) (capacity t)) :
    (insertBatch t keys values).1.used_buckets =
      t.used_buckets + keys.length -
        (kernelInsert (capacity t) t.table keys values).2 := by
  rw [insertBatch_eq_neg t keys values hnil hg]

theorem insertBatch_capacity_neg (t : GpuHashTable) (keys values : List Nat)
    (hnil : ¬ keys.length = 0)
    (hg : ¬ loadFactorGtMax (t.used_buckets + keys.length) (capacity t)) :
    capacity (insertBatch t keys values).1 = capacity t := by
  rw [insertBatch_eq_neg t keys values hnil hg]
  show (kernelInsert (capacity t) t.table keys values).1.length = capacity t
  rw [kernelInsert_length]
  rfl

/-! ### Evaluation helpers for large concrete instances

The claim-level counterexamples live at the `2 ^ 24` binade boundary, far
beyond what the kernel can evaluate slot by slot; these lemmas compute the
relevant quantities symbolically. -/
theorem capacity_init (size : Nat) : capacity (GpuHashTable.init size) = size :=
  List.length_replicate size _

theorem log2_eq_of_bounds (x k : Nat) (hlo : 2 ^ k ≤ x) (hhi : x < 2 ^ (k + 1)) :
    Nat.log2 x = k := by
  have hx0 : x ≠ 0 := by
    have h2 : (0:Nat) < 2 ^ k := Nat.pow_pos (by norm_num)
    omega
  have h1 : k ≤ Nat.log2 x := (Nat.le_log2 hx0).mpr hlo
  have h2 : Nat.log2 x < k + 1 := (Nat.log2_lt hx0).mpr hhi
  omega

theorem rnd24_small {x : Nat} (h : x < 16777216) : rnd24 x = x := by
  unfold rnd24
  rw [if_pos h]

theorem rnd24_of_log2 (x k : Nat) (h : ¬ x < 16777216)
    (hlog : Nat.log2 x = k) : rnd24 x = rnd24Aux x (k - 23) := by
  unfold rnd24
  rw [if_neg h, hlog]

/-- A batch of pairwise-distinct keys, none already present, grows the model
by exactly the batch size (`updA` appends each one). -/
theorem length_batchUpd_nodup :
    ∀ (keys values : List Nat) (m : List (Nat × Nat)),
      values.length = keys.length → keys.Nodup →
      (∀ k ∈ keys, k ∉ m.map Prod.fst) →
      (batchUpd m keys values).length = m.length + keys.length := by
  intro keys
  induction keys with
  | nil =>
    intro values m _ _ _
    rw [batchUpd_nil]
    simp
  | cons k ks ih =>
    intro values m hlen hnd habs
    cases values with
    | nil => simp at hlen
    | cons v vs =>
      rw [batchUpd_cons]
      have hlk : lookupA m k = none :=
        (lookupA_eq_none_iff m k).mpr (habs k (List.mem_cons_self _ _))
      have habs' : ∀ k' ∈ ks, k' ∉ (updA m k v).map Prod.fst := by
        intro k' hk' hmem
        rcases keysA_updA_subset m k v k' hmem with he | hm
        · exact (List.nodup_cons.mp hnd).1 (he ▸ hk')
        · exact habs k' (List.mem_cons_of_mem _ hk') hm
      have hrec := ih vs (updA m k v) (by simpa using hlen)
        (List.nodup_cons.mp hnd).2 habs'
      rw [hrec, length_updA, if_pos hlk]
      simp only [List.length_cons]
      omega

/-! ### Claim theorems -/
/-- C2 (refuted — code bug): the claim says every `insertBatch` leaves
`used / capacity ≤ 0.8`, but insertion of the `13421773` distinct keys
`0 .. 13421772` into a fresh table of capacity `2 ^ 24` is a boundary
counterexample: the projected load factor computes in binary32 to exactly
`0.8f` (`13421773 / 2 ^ 24` is a representable float and `13421773` and
`16777216` convert exactly), so the strict test `lf > MAX_LOAD_FACTOR` at
part_001 line 246 fails, no resize happens, and the call returns with
`used / capacity = 13421773 / 16777216 > 0.8`
(`5 * 13421773 = 67108865 > 67108864 = 4 * 16777216`). -/
theorem load_factor_code_bug :
    ¬ loadFactorGtMax ((GpuHashTable.init 16777216).used_buckets +
        (List.range 13421773).length) (capacity (GpuHashTable.init 16777216)) ∧
    4 * capacity (insertBatch (GpuHashTable.init 16777216)
        (List.range 13421773) (List.range 13421773)).1 <
      5 * (insertBatch (GpuHashTable.init 16777216)
        (List.range 13421773) (List.range 13421773)).1.used_buckets := by
  have hcap : capacity (GpuHashTable.init 16777216) = 16777216 :=
    capacity_init 16777216
  have hlen : (List.range 13421773).length = 13421773 := List.length_range _
  have hr1 : rnd24 13421773 = 13421773 := rnd24_small (by norm_num)
  have hr2 : rnd24 16777216 = 16777216 := by
    rw [rnd24_of_log2 16777216 24 (by norm_num)
      (log2_eq_of_bounds 16777216 24 (by norm_num) (by norm_num))]
    decide
  have hne : ¬ (List.range 13421773).length = 0 := by
    rw [hlen]
    norm_num
  have hg : ¬ loadFactorGtMax ((GpuHashTable.init 16777216).used_buckets +
      (List.range 13421773).length) (capacity (GpuHashTable.init 16777216)) := by
    rw [hcap, hlen]
    show ¬ loadFactorGtMax (0 + 13421773) 16777216
    unfold loadFactorGtMax
    push_neg
    refine ⟨by norm_num, ?_⟩
    rw [show (0 + 13421773 : Nat) = 13421773 from rfl, hr1, hr2]
    norm_num
  refine ⟨hg, ?_⟩
  have hcap' : capacity (insertBatch (GpuHashTable.init 16777216)
      (List.range 13421773) (List.range 13421773)).1 = 16777216 := by
    rw [insertBatch_capacity_neg _ _ _ hne hg, hcap]
  have hkeys : ∀ k ∈ List.range 13421773, k ≠ KEY_INVALID := by
    intro k hk
    have hklt : k < 13421773 := List.mem_range.mp hk
    show k ≠ KEY_INVALID
    rw [show KEY_INVALID = 4294967295 from rfl]
    omega
  have hInv := insertBatch_spec (init_inv 16777216) rfl hkeys
  have hused' : (insertBatch (GpuHashTable.init 16777216)
      (List.range 13421773) (List.range 13421773)).1.used_buckets = 13421773 := by
    rw [hInv.2.2.2,
      length_batchUpd_nodup (List.range 13421773) (List.range 13421773) [] rfl
        (List.nodup_range _) (by simp)]
    rw [hlen]
    norm_num
  rw [hcap', hused']
  norm_num

/-- C3 (amended): for every `insertBatch` of `n > 0` items, the capacity after
the call is governed by the single-precision guard: when
`(float)(used + n) / (float)capacity > 0.8f` (the exact model
`loadFactorGtMax`) the table is resized to the truncation of
`(float)(used + n) / 0.5f`, which is `2 * rnd24 (used + n)` — equal to the
claimed `ceil((used + n) / 0.5) = 2 * (used + n)` exactly when
`used + n ≤ 2 ^ 24`, and smaller or larger beyond (see the counterexample);
otherwise the capacity is unchanged. -/
theorem resize_decision (t : GpuHashTable) (keys values : List Nat)
    (hne : ¬ keys.length = 0) :
    capacity (insertBatch t keys values).1 =
      if loadFactorGtMax (t.used_buckets + keys.length) (capacity t)
      then 2 * rnd24 (t.used_buckets + keys.length)
      else capacity t := by
  by_cases hg : loadFactorGtMax (t.used_buckets + keys.length) (capacity t)
  · rw [if_pos hg]
    exact insertBatch_capacity_pos t keys values hne hg
  · rw [if_neg hg]
    exact insertBatch_capacity_neg t keys values hne hg

theorem resize_decision_witness :
    ¬ ([1, 2, 3, 4, 5, 6, 7, 8, 9] : List Nat).length = 0 ∧
    capacity (insertBatch (GpuHashTable.init 10) [1, 2, 3, 4, 5, 6, 7, 8, 9]
        [1, 2, 3, 4, 5, 6, 7, 8, 9]).1 =
      if loadFactorGtMax ((GpuHashTable.init 10).used_buckets + 9)
          (capacity (GpuHashTable.init 10))
      then 2 * rnd24 ((GpuHashTable.init 10).used_buckets + 9)
      else capacity (GpuHashTable.init 10) :=
  ⟨by decide, resize_decision (GpuHashTable.init 10)
    [1, 2, 3, 4, 5, 6, 7, 8, 9] [1, 2, 3, 4, 5, 6, 7, 8, 9] (by decide)⟩

/-- C3 (counterexample to the resize amount as originally claimed): a single
batch of the `16777217` distinct keys `0 .. 16777216` into a fresh table of
capacity `20000000` projects a load factor of about `0.839`, so the resize
fires — but the code computes `(float)16777217 / 0.5f`, and `16777217` is
not representable in binary32: it rounds (tie to even) to `16777216`, so the
new capacity is `33554432`, not the claimed
`ceil((used + n) / 0.5) = 2 * (used + n) = 33554434`. -/
theorem resize_decision_counterexample :
    loadFactorGtMax ((GpuHashTable.init 20000000).used_buckets +
        (List.range 16777217).length) (capacity (GpuHashTable.init 20000000)) ∧
    capacity (insertBatch (GpuHashTable.init 20000000)
        (List.range 16777217) (List.range 16777217)).1 = 33554432 ∧
    2 * ((GpuHashTable.init 20000000).used_buckets +
        (List.range 16777217).length) = 33554434 := by
  have hcap : capacity (GpuHashTable.init 20000000) = 20000000 :=
    capacity_init 20000000
  have hlen : (List.range 16777217).length = 16777217 := List.length_range _
  have hr1 : rnd24 16777217 = 16777216 := by
    rw [rnd24_of_log2 16777217 24 (by norm_num)
      (log2_eq_of_bounds 16777217 24 (by norm_num) (by norm_num))]
    decide
  have hr2 : rnd24 20000000 = 20000000 := by
    rw [rnd24_of_log2 20000000 24 (by norm_num)
      (log2_eq_of_bounds 20000000 24 (by norm_num) (by norm_num))]
    decide
  have hne : ¬ (List.range 16777217).length = 0 := by
    rw [hlen]
    norm_num
  have hg : loadFactorGtMax ((GpuHashTable.init 20000000).used_buckets +
      (List.range 16777217).length) (capacity (GpuHashTable.init 20000000)) := by
    rw [hcap, hlen]
    show loadFactorGtMax (0 + 16777217) 20000000
    unfold loadFactorGtMax
    refine Or.inr ?_
    rw [show (0 + 16777217 : Nat) = 16777217 from rfl, hr1, hr2]
    norm_num
  have hdouble : 2 * ((GpuHashTable.init 20000000).used_buckets +
      (List.range 16777217).length) = 33554434 := by
    rw [hlen]
    show 2 * (0 + 16777217) = 33554434
    norm_num
  refine ⟨hg, ?_, hdouble⟩
  rw [insertBatch_capacity_pos _ _ _ hne hg,
    show (GpuHashTable.init 20000000).used_buckets = 0 from rfl, hlen,
    show (0 + 16777217 : Nat) = 16777217 from rfl, hr1]

/-- C6: A zero-length batch is signaled and leaves the table unchanged:
`insertBatch` with `n = 0` returns `false` and does not modify the state,
every call with `n > 0` returns `true`, and `getBatch` with `n = 0` returns
the null result (`getBatch` never modifies the state by construction: its
kernel writes only the output buffer). -/
theorem zero_length_batch (t : GpuHashTable) (values keys values' : List Nat)
    (hne : ¬ keys.length = 0) :
    insertBatch t [] values = (t, false) ∧
    getBatch t [] = none ∧
    (insertBatch t keys values').2 = true := by
  refine ⟨rfl, rfl, ?_⟩
  by_cases hg : loadFactorGtMax (t.used_buckets + keys.length) (capacity t)
  · rw [insertBatch_eq_pos t keys values' hne hg]
  · rw [insertBatch_eq_neg t keys values' hne hg]

theorem zero_length_batch_witness :
    ¬ ([7] : List Nat).length = 0 ∧
    (insertBatch (GpuHashTable.init 4) [] [3] = (GpuHashTable.init 4, false) ∧
      getBatch (GpuHashTable.init 4) [] = none ∧
      (insertBatch (GpuHashTable.init 4) [7] [70]).2 = true) :=
  ⟨by decide, zero_length_batch (GpuHashTable.init 4) [3] [7] [70] (by decide)⟩

/-- C9: When no resize is triggered (the single-precision load-factor guard
is false), `insertBatch` modifies only slots whose key is the sentinel or one
of the batch's keys: every slot holding a live key not in the batch keeps its
key and value, and the capacity is unchanged.  (When a resize triggers, the
old array is released wholesale and replaced, as the capacity clause of the
claim acknowledges.) -/
theorem insertBatch_frame (t : GpuHashTable) (keys values : List Nat)
    (hne : ¬ keys.length = 0)
    (hg : ¬ loadFactorGtMax (t.used_buckets + keys.length) (capacity t))
    (i : Nat) (hi : i < capacity t) (hlive : keyAt t.table i ≠ KEY_INVALID)
    (hnotin : keyAt t.table i ∉ keys) :
    entryAt (insertBatch t keys values).1.table i = entryAt t.table i ∧
    capacity (insertBatch t keys values).1 = capacity t := by
  refine ⟨?_, insertBatch_capacity_neg t keys values hne hg⟩
  rw [insertBatch_eq_neg t keys values hne hg]
  show entryAt (kernelInsert (capacity t) t.table keys values).1 i = entryAt t.table i
  have hcap : 0 < capacity t := by omega
  exact kernelInsert_frame keys values t.table (capacity t) hcap i hlive hnotin

theorem insertBatch_frame_witness :
    (¬ ([2] : List Nat).length = 0) ∧
    (¬ loadFactorGtMax ((insertBatch (GpuHashTable.init 8) [1] [10]).1.used_buckets + 1)
      (capacity (insertBatch (GpuHashTable.init 8) [1] [10]).1)) ∧
    6 < capacity (insertBatch (GpuHashTable.init 8) [1] [10]).1 ∧
    keyAt (insertBatch (GpuHashTable.init 8) [1] [10]).1.table 6 ≠ KEY_INVALID ∧
    keyAt (insertBatch (GpuHashTable.init 8) [1] [10]).1.table 6 ∉ ([2] : List Nat) ∧
    (entryAt (insertBatch (insertBatch (GpuHashTable.init 8) [1] [10]).1 [2] [20]).1.table 6 =
        entryAt (insertBatch (GpuHashTable.init 8) [1] [10]).1.table 6 ∧
      capacity (insertBatch (insertBatch (GpuHashTable.init 8) [1] [10]).1 [2] [20]).1 =
        capacity (insertBatch (GpuHashTable.init 8) [1] [10]).1) :=
  ⟨by decide, by decide, by decide, by decide, by decide,
    insertBatch_frame (insertBatch (GpuHashTable.init 8) [1] [10]).1 [2] [20]
      (by decide) (by decide) 6 (by decide) (by decide) (by decide)⟩

/-- C10: `used_buckets` is monotonically non-decreasing across every sequence
of public operations (`getBatch` and `reshape` never change it, and every
`insertBatch` changes it by `n - updates`), and the update counter of a
kernel launch never exceeds the batch size (each worker increments it at most
once), so the change is never negative. -/
theorem used_monotone :
    (∀ (t : GpuHashTable) (ops : List Op),
      t.used_buckets ≤ (runOps t ops).used_buckets) ∧
    (∀ (cap : Nat) (tbl : List TableEntry) (ks vs : List Nat),
      (kernelInsert cap tbl ks vs).2 ≤ ks.length) := by
  constructor
  · intro t ops
    induction ops generalizing t with
    | nil => exact Nat.le_refl _
    | cons o rest ih =>
      have hstep : t.used_buckets ≤ (applyOp t o).used_buckets := by
        cases o with
        | insert ks vs =>
          show t.used_buckets ≤ (insertBatch t ks vs).1.used_buckets
          obtain ⟨u, hu, hform⟩ := insertBatch_used_formula t ks vs
          omega
        | reshapeTo c => exact Nat.le_refl _
        | get ks => exact Nat.le_refl _
      have hrest := ih (applyOp t o)
      show t.used_buckets ≤ (runOps (applyOp t o) rest).used_buckets
      omega
  · intro cap tbl ks vs
    exact kernelInsert_updates_le ks vs tbl cap

/-- C1: Starting from a fresh table, run any serialized sequence of insert
batches (non-sentinel keys, matching value counts).  For every key whose
last-written value is `v` — that is, the folded model binds `k` to `v` — a
subsequent `getBatch` whose key list contains `k` at position `j` returns an
output array holding `some v` at position `j`. -/
theorem insert_get_roundtrip (cap0 : Nat) (bs : List (List Nat × List Nat))
    (hgood : ∀ b ∈ bs, b.2.length = b.1.length ∧ ∀ k ∈ b.1, k ≠ KEY_INVALID)
    (k v : Nat) (hlast : lookupA (runModel [] bs) k = some v)
    (ks : List Nat) (j : Nat) (hj : j < ks.length) (hkj : ks[j] = k) :
    ∃ res : List (Option Nat),
      getBatch (runInserts (GpuHashTable.init cap0) bs) ks = some res ∧
      res.length = ks.length ∧ res[j]? = some (some v) := by
  have hInv := runInserts_inv bs (GpuHashTable.init cap0) [] (init_inv cap0) hgood
  have hne : ¬ ks.length = 0 := by omega
  refine ⟨ks.map (fun k' =>
      kernelGetThread (runInserts (GpuHashTable.init cap0) bs).table
        (capacity (runInserts (GpuHashTable.init cap0) bs)) k'
        (capacity (runInserts (GpuHashTable.init cap0) bs))), ?_, by simp, ?_⟩
  · simp only [getBatch, if_neg hne]
  · rw [List.getElem?_map, List.getElem?_eq_getElem hj]
    show some (kernelGetThread _ _ ks[j] _) = some (some v)
    rw [hkj, getBatch_hit hInv hlast]

theorem insert_get_roundtrip_witness :
    (∀ b ∈ [(([1], [10]) : List Nat × List Nat)],
      b.2.length = b.1.length ∧ ∀ k ∈ b.1, k ≠ KEY_INVALID) ∧
    lookupA (runModel [] [([1], [10])]) 1 = some 10 ∧
    (0 : Nat) < ([1] : List Nat).length ∧
    ∃ res : List (Option Nat),
      getBatch (runInserts (GpuHashTable.init 4) [([1], [10])]) [1] = some res ∧
      res.length = ([1] : List Nat).length ∧ res[0]? = some (some 10) :=
  ⟨by decide, by decide, by decide,
    insert_get_roundtrip 4 [([1], [10])] (by decide) 1 10 (by decide) [1] 0
      (by decide) (by decide)⟩

/-- C4: Inserting `(k, v1)` in one batch and then `(k, v2)` in a later batch
leaves `used_buckets` unchanged by the second batch, and a subsequent
`getBatch([k])` returns `[v2]` — for any state satisfying the table
invariant. -/
theorem insert_update_idempotent {t : GpuHashTable} {m : List (Nat × Nat)}
    (hInv : TableInv t m) (k v1 v2 : Nat) (hk : k ≠ KEY_INVALID) :
    (insertBatch (insertBatch t [k] [v1]).1 [k] [v2]).1.used_buckets =
      (insertBatch t [k] [v1]).1.used_buckets ∧
    getBatch (insertBatch (insertBatch t [k] [v1]).1 [k] [v2]).1 [k] =
      some [some v2] := by
  have hsing : ∀ k' ∈ [k], k' ≠ KEY_INVALID := by
    intro k' hk'
    rw [List.mem_singleton.mp hk']
    exact hk
  have hInv1 := insertBatch_spec hInv
    (show ([v1] : List Nat).length = ([k] : List Nat).length from rfl) hsing
  rw [show batchUpd m [k] [v1] = updA m k v1 from rfl] at hInv1
  have hInv2 := insertBatch_spec hInv1
    (show ([v2] : List Nat).length = ([k] : List Nat).length from rfl) hsing
  rw [show batchUpd (updA m k v1) [k] [v2] = updA (updA m k v1) k v2 from rfl] at hInv2
  constructor
  · rw [hInv2.2.2.2, hInv1.2.2.2, length_updA,
      if_neg (by rw [lookupA_updA_self]; exact fun h => Option.noConfusion h)]
  · have hget := getBatch_hit hInv2 (lookupA_updA_self (updA m k v1) k v2)
    simp only [getBatch, if_neg (by simp : ¬ ([k] : List Nat).length = 0),
      List.map_cons, List.map_nil]
    rw [hget]

theorem insert_update_idempotent_witness :
    TableInv (GpuHashTable.init 4) [] ∧ (5 : Nat) ≠ KEY_INVALID ∧
    ((insertBatch (insertBatch (GpuHashTable.init 4) [5] [100]).1 [5] [200]).1.used_buckets =
        (insertBatch (GpuHashTable.init 4) [5] [100]).1.used_buckets ∧
      getBatch (insertBatch (insertBatch (GpuHashTable.init 4) [5] [100]).1 [5] [200]).1 [5] =
        some [some 200]) :=
  ⟨by decide, by decide,
    insert_update_idempotent (by decide : TableInv (GpuHashTable.init 4) []) 5 100 200
      (by decide)⟩

/-- C5: For every state satisfying the invariant and every new capacity `c`
with `c ≥ used / 0.5` (i.e. `2 * used ≤ c`), `reshape c` leaves
`used_buckets` unchanged and every key/value pair present before (every model
binding) is still retrievable unchanged via `getBatch`. -/
theorem reshape_preserves_entries {t : GpuHashTable} {m : List (Nat × Nat)}
    (hInv : TableInv t m) (c : Nat) (hc : 2 * t.used_buckets ≤ c) :
    (reshape t c).used_buckets = t.used_buckets ∧
    ∀ k v, lookupA m k = some v → getBatch (reshape t c) [k] = some [some v] := by
  have hroom : m.length ≤ c := by
    have := hInv.2.2.2
    omega
  obtain ⟨hInv', _, hused'⟩ := reshape_spec hInv hroom
  refine ⟨hused', ?_⟩
  intro k v hl
  have hget := getBatch_hit hInv' hl
  simp only [getBatch, if_neg (by simp : ¬ ([k] : List Nat).length = 0),
    List.map_cons, List.map_nil]
  rw [hget]

theorem reshape_preserves_entries_witness :
    TableInv (insertBatch (GpuHashTable.init 8) [1, 2] [10, 20]).1 [(1, 10), (2, 20)] ∧
    2 * (insertBatch (GpuHashTable.init 8) [1, 2] [10, 20]).1.used_buckets ≤ 16 ∧
    ((reshape (insertBatch (GpuHashTable.init 8) [1, 2] [10, 20]).1 16).used_buckets =
        (insertBatch (GpuHashTable.init 8) [1, 2] [10, 20]).1.used_buckets ∧
      ∀ k v, lookupA [(1, 10), (2, 20)] k = some v →
        getBatch (reshape (insertBatch (GpuHashTable.init 8) [1, 2] [10, 20]).1 16) [k] =
          some [some v]) :=
  ⟨by decide, by decide,
    reshape_preserves_entries
      (by decide : TableInv (insertBatch (GpuHashTable.init 8) [1, 2] [10, 20]).1
        [(1, 10), (2, 20)]) 16 (by decide)⟩

/-- C7: After construction, after `insertBatch` (non-sentinel keys, matching
counts, from an invariant state), and after `reshape` (to a capacity holding
all live entries), `used_buckets` equals the number of live (non-sentinel)
slots — which are pairwise-distinct keys by well-formedness — and `insertBatch`
accounts `used += n - updateCount` with `updateCount ≤ n`. -/
theorem used_counts_live_keys {t : GpuHashTable} {m : List (Nat × Nat)}
    (hInv : TableInv t m) (keys values : List Nat)
    (hlen : values.length = keys.length) (hkeys : ∀ k ∈ keys, k ≠ KEY_INVALID)
    (c : Nat) (hc : 2 * t.used_buckets ≤ c) (size : Nat) :
    (GpuHashTable.init size).used_buckets = countLive (GpuHashTable.init size).table ∧
    t.used_buckets = countLive t.table ∧
    (insertBatch t keys values).1.used_buckets =
      countLive (insertBatch t keys values).1.table ∧
    (reshape t c).used_buckets = countLive (reshape t c).table ∧
    ∃ u, u ≤ keys.length ∧
      (insertBatch t keys values).1.used_buckets =
        t.used_buckets + keys.length - u := by
  have h0 : (GpuHashTable.init size).used_buckets =
      countLive (GpuHashTable.init size).table := by
    show 0 = countLive (List.replicate size ⟨KEY_INVALID, KEY_INVALID⟩)
    rw [countLive_replicate]
  have h1 : t.used_buckets = countLive t.table := by
    rw [hInv.2.2.2, hInv.2.2.1]
  have hInv1 := insertBatch_spec hInv hlen hkeys
  have h2 : (insertBatch t keys values).1.used_buckets =
      countLive (insertBatch t keys values).1.table := by
    rw [hInv1.2.2.2, hInv1.2.2.1]
  have hroom : m.length ≤ c := by
    have := hInv.2.2.2
    omega
  have hInv2 := (reshape_spec hInv hroom).1
  have h3 : (reshape t c).used_buckets = countLive (reshape t c).table := by
    rw [hInv2.2.2.2, hInv2.2.2.1]
  exact ⟨h0, h1, h2, h3, insertBatch_used_formula t keys values⟩

theorem used_counts_live_keys_witness :
    TableInv (GpuHashTable.init 4) [] ∧
    ([10, 20] : List Nat).length = ([1, 2] : List Nat).length ∧
    (∀ k ∈ ([1, 2] : List Nat), k ≠ KEY_INVALID) ∧
    2 * (GpuHashTable.init 4).used_buckets ≤ 8 ∧
    ((GpuHashTable.init 6).used_buckets = countLive (GpuHashTable.init 6).table ∧
      (GpuHashTable.init 4).used_buckets = countLive (GpuHashTable.init 4).table ∧
      (insertBatch (GpuHashTable.init 4) [1, 2] [10, 20]).1.used_buckets =
        countLive (insertBatch (GpuHashTable.init 4) [1, 2] [10, 20]).1.table ∧
      (reshape (GpuHashTable.init 4) 8).used_buckets =
        countLive (reshape (GpuHashTable.init 4) 8).table ∧
      ∃ u, u ≤ ([1, 2] : List Nat).length ∧
        (insertBatch (GpuHashTable.init 4) [1, 2] [10, 20]).1.used_buckets =
          (GpuHashTable.init 4).used_buckets + ([1, 2] : List Nat).length - u) :=
  ⟨by decide, by decide, by decide, by decide,
    used_counts_live_keys (by decide : TableInv (GpuHashTable.init 4) [])
      [1, 2] [10, 20] (by decide) (by decide) 8 (by decide) 6⟩

/-- C8 (amended): a `kernelGet` lookup worker's scan terminates (for some
probe budget) if and only if the looked-up key is present in some slot of the
table; moreover every terminating scan has copied the value of a slot holding
that key, and already terminates within `capacity` probes.  An empty slot
does *not* stop the scan — see the counterexample. -/
theorem get_scan_terminates_iff_key_present (tbl : List TableEntry) (k : Nat)
    (hcap : 0 < tbl.length) :
    ((∃ fuel v, kernelGetThread tbl tbl.length k fuel = some v) ↔
      (∃ i, i < tbl.length ∧ keyAt tbl i = k)) ∧
    (∀ fuel v, kernelGetThread tbl tbl.length k fuel = some v →
      (∃ i, i < tbl.length ∧ keyAt tbl i = k ∧ (entryAt tbl i).value = v) ∧
      kernelGetThread tbl tbl.length k tbl.length = some v) := by
  have hhome : hashFunc k % tbl.length < tbl.length := Nat.mod_lt _ hcap
  have hmain : ∀ fuel v, kernelGetThread tbl tbl.length k fuel = some v →
      ∃ r, r < tbl.length ∧ keyAt tbl r = k ∧ (entryAt tbl r).value = v ∧
        kernelGetThread tbl tbl.length k tbl.length = some v := by
    intro fuel v hv
    unfold kernelGetThread at hv
    rw [getLoop_eq] at hv
    cases hfind : probeFind (stopGet tbl k) tbl.length fuel (hashFunc k % tbl.length) with
    | none => rw [hfind] at hv; exact absurd hv (by simp)
    | some r =>
      rw [hfind] at hv
      have hval : (entryAt tbl r).value = v := by
        simpa using hv
      obtain ⟨j, hjf, hrj, hpr, hpre⟩ := probeFind_some hhome hfind
      have hjlt : j < tbl.length := by
        by_contra hge
        push_neg at hge
        have hjm : j % tbl.length < j := Nat.lt_of_lt_of_le (Nat.mod_lt _ hcap) hge
        have hsame : (hashFunc k % tbl.length + j % tbl.length) % tbl.length
            = (hashFunc k % tbl.length + j) % tbl.length := Nat.add_mod_mod _ _ _
        have hfalse := hpre (j % tbl.length) hjm
        rw [hsame, ← hrj] at hfalse
        rw [hfalse] at hpr
        exact absurd hpr (by simp)
      have hrlt : r < tbl.length := by
        rw [hrj]
        exact Nat.mod_lt _ hcap
      have hkey : keyAt tbl r = k := (stopGet_true_iff.mp hpr).symm
      refine ⟨r, hrlt, hkey, hval, ?_⟩
      unfold kernelGetThread
      rw [getLoop_eq, probeFind_first hhome hjlt (hrj ▸ hpr) hpre, ← hrj]
      show some (entryAt tbl r).value = some v
      rw [hval]
  refine ⟨⟨?_, ?_⟩, ?_⟩
  · rintro ⟨fuel, v, hv⟩
    obtain ⟨r, hrlt, hkey, _, _⟩ := hmain fuel v hv
    exact ⟨r, hrlt, hkey⟩
  · rintro ⟨i, hi, hkey⟩
    have hstop : stopGet tbl k i = true := stopGet_true_iff.mpr hkey.symm
    obtain ⟨r, hr⟩ := probeFind_isSome hhome ⟨i, hi, hstop⟩
    refine ⟨tbl.length, (entryAt tbl r).value, ?_⟩
    unfold kernelGetThread
    rw [getLoop_eq, hr]
  · intro fuel v hv
    obtain ⟨r, hrlt, hkey, hval, hterm⟩ := hmain fuel v hv
    exact ⟨⟨r, hrlt, hkey, hval⟩, hterm⟩

theorem get_scan_terminates_witness :
    0 < ([(⟨7, 42⟩ : TableEntry)] : List TableEntry).length ∧
    (((∃ fuel v, kernelGetThread [(⟨7, 42⟩ : TableEntry)] 1 7 fuel = some v) ↔
        (∃ i, i < ([(⟨7, 42⟩ : TableEntry)] : List TableEntry).length ∧
          keyAt [(⟨7, 42⟩ : TableEntry)] i = 7)) ∧
      (∀ fuel v, kernelGetThread [(⟨7, 42⟩ : TableEntry)] 1 7 fuel = some v →
        (∃ i, i < ([(⟨7, 42⟩ : TableEntry)] : List TableEntry).length ∧
          keyAt [(⟨7, 42⟩ : TableEntry)] i = 7 ∧
          (entryAt [(⟨7, 42⟩ : TableEntry)] i).value = v) ∧
        kernelGetThread [(⟨7, 42⟩ : TableEntry)] 1 7 1 = some v)) :=
  ⟨by decide, get_scan_terminates_iff_key_present [⟨7, 42⟩] 7 (by decide)⟩

/-- C8 (counterexample to the claim as stated): a table consisting of one
empty (sentinel) slot — which is the home bucket of key `5` and is therefore
reachable along its probe sequence — on which the lookup scan for the absent
key `5` never terminates: no probe budget makes the worker return.  The scan
stops only on a key match, never on an empty slot. -/
theorem get_scan_empty_slot_diverges :
    keyAt [(⟨KEY_INVALID, KEY_INVALID⟩ : TableEntry)] (hashFunc 5 % 1) = KEY_INVALID ∧
    ¬ ∃ fuel v,
      kernelGetThread [(⟨KEY_INVALID, KEY_INVALID⟩ : TableEntry)] 1 5 fuel = some v := by
  constructor
  · rfl
  · rintro ⟨fuel, v, hv⟩
    have hnone : ∀ f idx,
        getLoop [(⟨KEY_INVALID, KEY_INVALID⟩ : TableEntry)] 1 5 f idx = none := by
      intro f
      induction f with
      | zero => intro idx; rfl
      | succ n ih =>
        intro idx
        rw [getLoop]
        have hkey : keyAt [(⟨KEY_INVALID, KEY_INVALID⟩ : TableEntry)] idx
            = KEY_INVALID := by
          cases idx with
          | zero => rfl
          | succ i => rfl
        rw [hkey, if_neg (by decide : ¬ ((5 == KEY_INVALID) = true))]
        exact ih _
    unfold kernelGetThread at hv
    rw [hnone] at hv
    exact Option.noConfusion hv
